import Mathlib

/-!
# OBJ mesh container: shallow embedding of `OBJ.h`

The embedding follows `src/OBJ.h` function by function.

* `std::vector` is a `List`; an out-of-range `operator[]` (undefined behaviour in the
  source) is the error branch `none`.
* Vertex indices are `unsigned int`; they are natural numbers here, and where the source
  computes with them (`fuse`, the `v + 1` of `toFile`, the `- 1` of `fromFile`) the result is
  reduced modulo `2 ^ 32`.
  Container sizes are taken to fit `unsigned int`, so `numVertices()` is the list length.
* Coordinates (`double` in the source) are exact rationals.
* `Eigen::Matrix` is not part of the repository and its default constructor leaves the
  coefficients unset. The accumulator `Vector3 ret;` of `centroid` is never initialised, so
  its content is indeterminate at every call: it is the argument `ret` of `centroid`, and
  nothing may be assumed about it.
* The comparator handed to `std::sort` calls `centroid` twice at every comparison. Its answer
  depends on the contents of the two accumulators, so it is no strict weak ordering, and
  `std::sort` with such a comparator has undefined behaviour (a run may return any order or
  leave the range it sorts): the error branch `none`. Fewer than two components are never
  compared and stay as they are.
* The recursion of `Graph::dfsUtil` is bounded by a fuel argument; `dfsUtil_spec` shows that
  the fuel handed over by `Graph::connectedComponents` always suffices.
* A file is the list of its characters. Insertion and extraction of coordinates and the
  extraction of an `unsigned int` belong to the stream library and are the parameter
  `StreamLib`; an `unsigned int` is written in decimal digits.
-/

/-- Modulus of `unsigned int` arithmetic. -/
def uintModulus : Nat := 4294967296

/-- The typedef `Vector3` (`Eigen::Matrix<double, 3, 1>`) with exact coordinates. It lives in
the namespace `OBJ` because the library already has a root `Vector3`. -/
structure OBJ.Vector3 where
  x : ℚ
  y : ℚ
  z : ℚ
deriving DecidableEq

namespace OBJ.Vector3

/-- The zero vector. -/
def zero : Vector3 := ⟨0, 0, 0⟩

/-- Sum `a + b` (`operator+=` on the accumulator). -/
def add (a b : Vector3) : Vector3 := ⟨a.x + b.x, a.y + b.y, a.z + b.z⟩

/-- Quotient `a / n` for the integral scalar `n` (`ret / component.size()`). -/
def divScalar (a : Vector3) (n : Nat) : Vector3 := ⟨a.x / n, a.y / n, a.z / n⟩

/-- Coefficient access `a[d]`, out of range for `d > 2`. -/
def coeff (a : Vector3) (d : Nat) : Option ℚ :=
  match d with
  | 0 => some a.x
  | 1 => some a.y
  | 2 => some a.z
  | _ => none

end OBJ.Vector3

/-- The mesh: `vertices`, `normals`, `faces` of `class OBJ`. -/
structure OBJ where
  vertices : List OBJ.Vector3
  normals : List OBJ.Vector3
  faces : List (List Nat)
deriving DecidableEq

namespace OBJ

/-- Member `unsigned int numVertices() const`. -/
def numVertices (obj : OBJ) : Nat := obj.vertices.length

/-- Member `unsigned int numNormals() const`. -/
def numNormals (obj : OBJ) : Nat := obj.normals.length

/-- Member `unsigned int numFaces() const`. -/
def numFaces (obj : OBJ) : Nat := obj.faces.length

/-- The private helper class `OBJ::Graph`. -/
structure Graph where
  numVertices_ : Nat
  adjLists_ : List (List Nat)
  visited_ : List Bool
  connectedComponents_ : List (List Nat)
deriving DecidableEq

namespace Graph

/-- Statement `adjLists_[i].emplace_back(x)`. -/
def emplaceAt (adj : List (List Nat)) (i x : Nat) : Option (List (List Nat)) :=
  match adj[i]? with
  | none => none
  | some l => some (adj.set i (l ++ [x]))

/-- Body of the inner constructor loop: both directions of the edge `v1 - v2`. -/
def addEdge (adj : List (List Nat)) (v1 v2 : Nat) : Option (List (List Nat)) :=
  (emplaceAt adj v1 v2).bind (fun adj1 => emplaceAt adj1 v2 v1)

/-- Inner constructor loop over the positions `vIdx` of one face. -/
def addFace (face : List Nat) : List Nat → List (List Nat) → Option (List (List Nat))
  | [], adj => some adj
  | vIdx :: rest, adj =>
    match face[vIdx - 1]?, face[vIdx]? with
    | some v1, some v2 => (addEdge adj v1 v2).bind (addFace face rest)
    | _, _ => none

/-- Outer constructor loop `for (const auto& face : obj.faces)`, with
`vIdx = 1, ..., face.size() - 1`. -/
def addFaces : List (List Nat) → List (List Nat) → Option (List (List Nat))
  | [], adj => some adj
  | face :: rest, adj =>
    (addFace face (List.range' 1 (face.length - 1)) adj).bind (addFaces rest)

/-- Constructor `Graph(const OBJ& obj)`. -/
def ofOBJ (obj : OBJ) : Option Graph :=
  (addFaces obj.faces (List.replicate obj.numVertices [])).map fun adj =>
    { numVertices_ := obj.numVertices
      adjLists_ := adj
      visited_ := List.replicate obj.numVertices false
      connectedComponents_ := [] }

/-- Statement `connectedComponents_.back().emplace_back(v)`; `back()` of an empty vector is
an error. -/
def emplaceBackLast : List (List Nat) → Nat → Option (List (List Nat))
  | [], _ => none
  | [c], v => some [c ++ [v]]
  | c :: d :: rest, v => (emplaceBackLast (d :: rest) v).map (fun t => c :: t)

/-- The `for` loop of `dfsUtil` over the adjacency list of the current vertex; `visit` is
the recursive call. -/
def dfsLoop (visit : Graph → Nat → Option Graph) : Graph → List Nat → Option Graph
  | g, [] => some g
  | g, i :: rest =>
    match g.visited_[i]? with
    | none => none
    | some true => dfsLoop visit g rest
    | some false => (visit g i).bind (fun g1 => dfsLoop visit g1 rest)

/-- Member `void dfsUtil(const unsigned int v)`; the first argument bounds the recursion
depth. -/
def dfsUtil : Nat → Graph → Nat → Option Graph
  | 0, _, _ => none
  | fuel + 1, g, v =>
    if v < g.visited_.length then
      match emplaceBackLast g.connectedComponents_ v, g.adjLists_[v]? with
      | some ccs, some nbrs =>
        dfsLoop (dfsUtil fuel)
          { g with visited_ := g.visited_.set v true, connectedComponents_ := ccs } nbrs
      | _, _ => none
    else none

/-- The `for (unsigned int v = 0; v < numVertices_; ++v)` loop of `connectedComponents`. -/
def ccLoop : Graph → List Nat → Option Graph
  | g, [] => some g
  | g, v :: rest =>
    match g.visited_[v]? with
    | none => none
    | some true => ccLoop g rest
    | some false =>
      (dfsUtil g.numVertices_ g v).bind fun g1 =>
        ccLoop { g1 with connectedComponents_ := g1.connectedComponents_ ++ [[]] } rest

/-- Member `void connectedComponents()` of `Graph`. -/
def connectedComponents (g : Graph) : Option Graph :=
  (ccLoop
      { g with
        connectedComponents_ := [[]]
        visited_ := List.replicate g.numVertices_ false }
      (List.range g.numVertices_)).bind fun g1 =>
    match g1.connectedComponents_.getLast? with
    | none => none
    | some b =>
      if b.isEmpty then some { g1 with connectedComponents_ := g1.connectedComponents_.dropLast }
      else some g1

/-- Member `getConnectedComponents()`: the components, computed unless already cached. -/
def getConnectedComponents (g : Graph) : Option (List (List Nat)) :=
  if g.connectedComponents_.isEmpty then
    (connectedComponents g).map (fun g1 => g1.connectedComponents_)
  else some g.connectedComponents_

end Graph

/-- A `std::map<unsigned int, unsigned int>` as an association list; the first binding of a
key is the current one. -/
abbrev IndexMap := List (Nat × Nat)

/-- Call `m.count(k)`. -/
def IndexMap.count (m : IndexMap) (k : Nat) : Nat :=
  match m.lookup k with
  | some _ => 1
  | none => 0

/-- Assignment `m[k] = v`. -/
def IndexMap.assign (m : IndexMap) (k v : Nat) : IndexMap := (k, v) :: m

/-- Reading `m[k]`: an absent key is inserted with the value `0`. -/
def IndexMap.subscript (m : IndexMap) (k : Nat) : Nat × IndexMap :=
  match m.lookup k with
  | some v => (v, m)
  | none => (0, (k, 0) :: m)

/-- Function `static Vector3 centroid(const OBJ& obj, const std::vector<unsigned int> component)`.
The source declares the accumulator as `Vector3 ret;` and never initialises it; the argument
`ret` is the content the accumulator happens to have when the loop starts. It is indeterminate
and may differ from one call to the next. -/
def centroid (ret : Vector3) (obj : OBJ) (component : List Nat) : Option Vector3 :=
  (component.foldlM (fun acc c => (obj.vertices[c]?).map (fun p => acc.add p)) ret).map
    (fun acc => acc.divScalar component.length)

/-- First loop of `slice`: copies vertex and normal `vertices[v]` and records
`old2newVertex[vertices[v]] = v`. -/
def sliceVertices (obj : OBJ) : List Nat → Nat → OBJ × IndexMap → Option (OBJ × IndexMap)
  | [], _, st => some st
  | idx :: rest, v, (ret, m) =>
    match obj.vertices[idx]?, obj.normals[idx]? with
    | some p, some n =>
      sliceVertices obj rest (v + 1)
        ({ ret with vertices := ret.vertices ++ [p], normals := ret.normals ++ [n] },
          m.assign idx v)
    | _, _ => none

/-- The `std::transform` over a copied face: each index is read through `old2newVertex[lv]`. -/
def remapFace : IndexMap → List Nat → List Nat × IndexMap
  | m, [] => ([], m)
  | m, lv :: rest =>
    let r := m.subscript lv
    let t := remapFace r.2 rest
    (r.1 :: t.1, t.2)

/-- The loop `for (const auto& v : f)` with its `break`: `vs` is what is left to scan of `f`. -/
def sliceFace (f : List Nat) : List Nat → List (List Nat) × IndexMap → List (List Nat) × IndexMap
  | [], st => st
  | v :: vs, (faces, m) =>
    if m.count v > 0 then
      let t := remapFace m f
      (faces ++ [t.1], t.2)
    else sliceFace f vs (faces, m)

/-- The loop `for (const auto& f : obj.faces)` of `slice`. -/
def sliceFaces : List (List Nat) → List (List Nat) × IndexMap → List (List Nat) × IndexMap
  | [], st => st
  | f :: rest, st => sliceFaces rest (sliceFace f f st)

/-- Function `static OBJ slice(const OBJ& obj, const std::vector<unsigned int>& vertices)`. -/
def slice (obj : OBJ) (vertices : List Nat) : Option OBJ :=
  (sliceVertices obj vertices 0 (⟨[], [], []⟩, [])).map fun st =>
    { st.1 with faces := (sliceFaces obj.faces (st.1.faces, st.2)).1 }

/-- Function `static OBJ fuse(const OBJ& obj1, const OBJ& obj2)`. -/
def fuse (obj1 obj2 : OBJ) : OBJ :=
  { vertices := obj2.vertices.foldl (fun acc v => acc ++ [v]) obj1.vertices
    normals := obj2.normals.foldl (fun acc vn => acc ++ [vn]) obj1.normals
    faces := obj2.faces.foldl
      (fun acc f => acc ++ [f.map (fun lv => (obj1.numVertices + lv) % uintModulus)])
      obj1.faces }

/-- The expression `centroid(obj, a)[sortingDimension]` of the comparator, for the content
`ret` of the accumulator of that call of `centroid`. -/
def sortKey (ret : Vector3) (obj : OBJ) (sortingDimension : Nat) (a : List Nat) : Option ℚ :=
  (centroid ret obj a).bind (fun c => c.coeff sortingDimension)

/-- The call of `std::sort` in `connectedComponents`. With fewer than two components the
comparator is never evaluated and the components stay as they are. With two or more,
`std::sort` evaluates the comparator `lessByCentroid`; the accumulators of `centroid` are not
initialised, so its answer is not determined by the components it compares and it is no
strict weak ordering. The behaviour of `std::sort` is then undefined (it may return any order
or leave the range of the components), which is the error branch. -/
def sortComponents (_obj : OBJ) (_sortingDimension : Nat) (ccs : List (List Nat)) :
    Option (List (List Nat)) :=
  if ccs.length < 2 then some ccs else none

/-- The loop `for (const auto& cc : ccs) ret.emplace_back(slice(obj, cc))`. -/
def sliceEach (obj : OBJ) : List (List Nat) → Option (List OBJ)
  | [] => some []
  | cc :: rest =>
    match slice obj cc, sliceEach obj rest with
    | some m, some t => some (m :: t)
    | _, _ => none

/-- The expression `Graph(obj).getConnectedComponents()` of `connectedComponents`. -/
def graphComponents (obj : OBJ) : Option (List (List Nat)) :=
  (Graph.ofOBJ obj).bind Graph.getConnectedComponents

/-- Function `static std::vector<OBJ> connectedComponents(const OBJ& obj, unsigned int
sortingDimension = 0)`. -/
def connectedComponents (obj : OBJ) (sortingDimension : Nat) : Option (List OBJ) :=
  (graphComponents obj).bind fun ccs =>
    (sortComponents obj sortingDimension ccs).bind (sliceEach obj)

end OBJ

/-! ## Text format: `toFile` and `fromFile` -/

/-- Decimal digit `d` as a character. -/
def digitChar (d : Nat) : Char :=
  match d with
  | 0 => '0'
  | 1 => '1'
  | 2 => '2'
  | 3 => '3'
  | 4 => '4'
  | 5 => '5'
  | 6 => '6'
  | 7 => '7'
  | 8 => '8'
  | _ => '9'

/-- Value of a decimal digit character. -/
def digitValue (c : Char) : Option Nat :=
  if c = '0' then some 0
  else if c = '1' then some 1
  else if c = '2' then some 2
  else if c = '3' then some 3
  else if c = '4' then some 4
  else if c = '5' then some 5
  else if c = '6' then some 6
  else if c = '7' then some 7
  else if c = '8' then some 8
  else if c = '9' then some 9
  else none

/-- Digits of `n`, most significant first, put in front of `acc`; the first argument bounds
the number of digits. -/
def decimalAux : Nat → Nat → List Char → List Char
  | 0, _, acc => acc
  | fuel + 1, n, acc =>
    if n / 10 = 0 then digitChar (n % 10) :: acc
    else decimalAux fuel (n / 10) (digitChar (n % 10) :: acc)

/-- Stream insertion `operator<<` of an `unsigned int`: its decimal digits. -/
def decimal (n : Nat) : List Char := decimalAux (n + 1) n []

/-- What the stream library contributes to `toFile` and `fromFile`: the text written for a
coordinate (under `std::fixed` and `std::setprecision(18)`), and the coordinate and the
`unsigned int` extracted from a token by `operator>>` (the helper `as`). -/
structure StreamLib where
  showScalar : ℚ → List Char
  readScalar : List Char → ℚ
  readUInt : List Char → Nat

/-- A written coordinate is a non-empty text without blank and without line break. -/
def StreamLib.ShowsTokens (L : StreamLib) : Prop :=
  ∀ q, L.showScalar q ≠ [] ∧ ' ' ∉ L.showScalar q ∧ '\n' ∉ L.showScalar q

/-- Extraction of an `unsigned int` reads back the decimal digits written for it. -/
def StreamLib.ReadsDecimal (L : StreamLib) : Prop :=
  ∀ n, n < uintModulus → L.readUInt (decimal n) = n

namespace OBJ

/-- The loop `while (std::getline(ss, tmp, token)) ret.push_back(tmp)`: `tmp` holds the
characters extracted so far. At the end of the input a last piece is returned only if a
character was extracted for it. -/
def tokenizeAux (token : Char) : List Char → List Char → List (List Char)
  | [], tmp => if tmp = [] then [] else [tmp]
  | c :: cs, tmp =>
    if c = token then tmp :: tokenizeAux token cs []
    else tokenizeAux token cs (tmp ++ [c])

/-- Helper `static std::vector<std::string> tokenize(const std::string& s, const char token)`. -/
def tokenize (s : List Char) (token : Char) : List (List Char) := tokenizeAux token s []

/-- The loop over `tokens[1], tokens[2], ...` of a face line: the first `/`-separated field of
each token, read as `unsigned int`, minus one. -/
def parseFace (L : StreamLib) : List (List Char) → Option (List Nat)
  | [] => some []
  | token :: rest =>
    match (tokenize token '/')[0]?, parseFace L rest with
    | some field, some face => some ((L.readUInt field + uintModulus - 1) % uintModulus :: face)
    | _, _ => none

/-- The switch variable `cmd` of `fromFile`: `'n'` for the token `vn`, otherwise the first
character of the token (`'\0'` for the empty token). -/
def command (token : List Char) : Char :=
  if token = ['v', 'n'] then 'n' else token.headD (Char.ofNat 0)

/-- Body of the `while` loop of `fromFile` for one line. -/
def parseLine (L : StreamLib) (ret : OBJ) (line : List Char) : Option OBJ :=
  if line = [] then some ret
  else if line.head? = some '#' then some ret
  else
    match tokenize line ' ' with
    | [] => some ret
    | t0 :: args =>
      if command t0 = 'v' then
        match args with
        | a :: b :: c :: _ =>
          some { ret with
            vertices := ret.vertices ++ [⟨L.readScalar a, L.readScalar b, L.readScalar c⟩] }
        | _ => none
      else if command t0 = 'n' then
        match args with
        | a :: b :: c :: _ =>
          some { ret with
            normals := ret.normals ++ [⟨L.readScalar a, L.readScalar b, L.readScalar c⟩] }
        | _ => none
      else if command t0 = 'f' then
        (parseFace L args).map (fun face => { ret with faces := ret.faces ++ [face] })
      else some ret

/-- The `while (std::getline(infile, line))` loop of `fromFile` over the lines of the file. -/
def parseLines (L : StreamLib) : OBJ → List (List Char) → Option OBJ
  | ret, [] => some ret
  | ret, line :: rest => (parseLine L ret line).bind (fun r => parseLines L r rest)

/-- Function `static OBJ fromFile(const std::string& file)` on the text of the file;
`std::getline` with the line break as delimiter splits like `tokenize`. -/
def fromFile (L : StreamLib) (text : List Char) : Option OBJ :=
  parseLines L ⟨[], [], []⟩ (tokenize text '\n')

/-- The three coordinates of a vertex or normal line, each after a blank. -/
def coordinates (L : StreamLib) (p : Vector3) : List Char :=
  [' '] ++ L.showScalar p.x ++ [' '] ++ L.showScalar p.y ++ [' '] ++ L.showScalar p.z

/-- The inner loop of `toFile` over a face: each index `v` as ` (v+1)//(v+1)`, the sum being
`unsigned int` arithmetic. -/
def faceIndices : List Nat → List Char
  | [] => []
  | v :: vs =>
    [' '] ++ decimal ((v + 1) % uintModulus) ++ ['/', '/'] ++ decimal ((v + 1) % uintModulus)
      ++ faceIndices vs

/-- The text of the face line of `f`, without the line break. -/
def faceLine (f : List Nat) : List Char := ['f'] ++ faceIndices f

/-- The header comment line of `toFile`, without the line break. -/
def headerLine (obj : OBJ) : List Char :=
  "# Vertices: ".toList ++ decimal obj.numVertices ++ ", Normals: ".toList
    ++ decimal obj.numNormals ++ " Faces: ".toList ++ decimal obj.numFaces

/-- Every line followed by the line break of `std::endl`. -/
def endlAll : List (List Char) → List Char
  | [] => []
  | l :: ls => l ++ '\n' :: endlAll ls

/-- Function `static void toFile(const OBJ& obj, const std::string& file)`: the text written
to the file. -/
def toFile (L : StreamLib) (obj : OBJ) : List Char :=
  endlAll
    (headerLine obj ::
      (obj.vertices.map (fun v => ['v'] ++ coordinates L v)
        ++ obj.normals.map (fun vn => ['v', 'n'] ++ coordinates L vn)
        ++ obj.faces.map faceLine))

end OBJ

/-! ## Specification vocabulary -/

namespace OBJ

/-- Vertex `b` occurs in the adjacency list of `a`. -/
def Adj (adj : List (List Nat)) (a b : Nat) : Prop := ∃ l, adj[a]? = some l ∧ b ∈ l

/-- Vertices `a` and `b` stand at consecutive positions of `face`, in this order. -/
def Consecutive (face : List Nat) (a b : Nat) : Prop :=
  ∃ i, face[i]? = some a ∧ face[i + 1]? = some b

/-- The face-induced edge relation of a mesh. -/
def FaceEdge (obj : OBJ) (a b : Nat) : Prop :=
  ∃ f ∈ obj.faces, Consecutive f a b ∨ Consecutive f b a

/-- Every face index is a valid vertex index. -/
def ValidFaces (obj : OBJ) : Prop := ∀ f ∈ obj.faces, ∀ v ∈ f, v < obj.numVertices

instance validFaces_decidable (obj : OBJ) : Decidable (ValidFaces obj) :=
  inferInstanceAs (Decidable (∀ f ∈ obj.faces, ∀ v ∈ f, v < obj.numVertices))

namespace Graph

/-- The edge contributed by position `k` of `face`. -/
def EdgeAt (face : List Nat) (k a b : Nat) : Prop :=
  (face[k - 1]? = some a ∧ face[k]? = some b) ∨ (face[k - 1]? = some b ∧ face[k]? = some a)

/-- Vertex `u` is marked in `visited_`. -/
def Vis (g : Graph) (u : Nat) : Prop := g.visited_[u]? = some true

/-- Vertex `y` is reached from `x` along adjacency-list edges that stay inside `S`. -/
def Reach (adj : List (List Nat)) (S : List Nat) : Nat → Nat → Prop :=
  Relation.ReflTransGen (fun a b => a ∈ S ∧ b ∈ S ∧ Adj adj a b)

/-- Shape invariant of a graph on `N` vertices during the traversal. -/
structure WF (g : Graph) (N : Nat) : Prop where
  nv : g.numVertices_ = N
  adjLen : g.adjLists_.length = N
  adjLt : ∀ a b, Adj g.adjLists_ a b → b < N
  visLen : g.visited_.length = N

/-- What a traversal step from `g` to `g1` guarantees: `new` is what it appended to the
current component `last`. -/
structure DfsPost (g g1 : Graph) (init : List (List Nat)) (last new : List Nat) : Prop where
  adj : g1.adjLists_ = g.adjLists_
  nv : g1.numVertices_ = g.numVertices_
  visLen : g1.visited_.length = g.visited_.length
  ccs : g1.connectedComponents_ = init ++ [last ++ new]
  nodup : new.Nodup
  vis : ∀ u, Vis g1 u ↔ (Vis g u ∨ u ∈ new)
  fresh : ∀ u ∈ new, ¬ Vis g u
  cnt : g1.visited_.count false + new.length = g.visited_.count false
  closed : ∀ u ∈ new, ∀ w, Adj g.adjLists_ u w → Vis g1 w

/-- What is required of a finished component `c` with first vertex `h`. -/
def HeadOf (adj : List (List Nat)) (h : Nat) (c : List Nat) : Prop :=
  ∃ t, c = h :: t ∧ (∀ u ∈ c, h ≤ u) ∧ ∀ u ∈ c, Reach adj c h u

/-- Invariant of the loop of `connectedComponents` before vertex `k` is examined: `done` are
the finished components and `heads` their first vertices. -/
structure CcInv (s : Graph) (done : List (List Nat)) (heads : List Nat) (k : Nat) : Prop where
  ccs : s.connectedComponents_ = done ++ [[]]
  nodup : done.flatten.Nodup
  vis : ∀ u, Vis s u ↔ u ∈ done.flatten
  below : ∀ u, u < k → Vis s u
  closed : ∀ c ∈ done, ∀ u ∈ c, ∀ w, Adj s.adjLists_ u w → w ∈ c
  headsLt : ∀ h ∈ heads, h < k
  headsSorted : heads.Pairwise (fun a b => a < b)
  heads : List.Forall₂ (HeadOf s.adjLists_) heads done

/-- What `getConnectedComponents` returns for the graph of a mesh with valid faces. -/
structure Components (obj : OBJ) (ccs : List (List Nat)) : Prop where
  nodup : ccs.flatten.Nodup
  cover : ∀ u, u ∈ ccs.flatten ↔ u < obj.numVertices
  closed : ∀ c ∈ ccs, ∀ u ∈ c, ∀ w, FaceEdge obj u w → w ∈ c
  heads : ∃ heads : List Nat, heads.Pairwise (fun a b => a < b) ∧
    List.Forall₂ (fun h c => ∃ t, c = h :: t ∧ (∀ u ∈ c, h ≤ u) ∧
      ∀ u ∈ c, Relation.ReflTransGen (fun a b => a ∈ c ∧ b ∈ c ∧ FaceEdge obj a b) h u) heads ccs

end Graph

/-- The new index of old index `k` under `slice` by `subset`: its position in `subset`, and
the default `0` of the map for an index that is not in `subset`. -/
def remapIndex (subset : List Nat) (k : Nat) : Nat :=
  if k ∈ subset then subset.indexOf k else 0

/-- State of `old2newVertex` during the face loop of `slice`: subset entries are bound to their
position, any other key is absent or bound to `0`. -/
def MapInv (subset : List Nat) (m : IndexMap) : Prop :=
  ∀ k, (k ∈ subset → m.lookup k = some (subset.indexOf k)) ∧
    (k ∉ subset → m.lookup k = none ∨ m.lookup k = some 0)

/-- Two disconnected triangles. -/
def twoTriangles : OBJ :=
  ⟨[⟨0, 0, 0⟩, ⟨1, 0, 0⟩, ⟨0, 1, 0⟩, ⟨5, 0, 0⟩, ⟨6, 0, 0⟩, ⟨5, 1, 0⟩],
    [⟨0, 0, 1⟩, ⟨0, 0, 1⟩, ⟨0, 0, 1⟩, ⟨0, 0, 1⟩, ⟨0, 0, 1⟩, ⟨0, 0, 1⟩],
    [[0, 1, 2], [3, 4, 5]]⟩

/-- The single face `[0, 1, 2]` on three vertices. -/
def triangle : OBJ :=
  ⟨[⟨0, 0, 0⟩, ⟨1, 0, 0⟩, ⟨0, 1, 0⟩], [⟨0, 0, 1⟩, ⟨0, 0, 1⟩, ⟨0, 0, 1⟩], [[0, 1, 2]]⟩

/-- Three vertices with the faces `[0, 1]` and `[1, 2]`. -/
def chainMesh : OBJ :=
  ⟨[⟨0, 0, 0⟩, ⟨1, 0, 0⟩, ⟨2, 0, 0⟩], [⟨0, 0, 1⟩, ⟨0, 0, 1⟩, ⟨0, 0, 1⟩], [[0, 1], [1, 2]]⟩

/-- A mesh of one vertex and no face. -/
def oneVertex : OBJ := ⟨[⟨0, 0, 0⟩], [], []⟩

/-- A mesh without vertices whose only face holds the largest `unsigned int`. -/
def bigIndexMesh : OBJ := ⟨[], [], [[4294967295]]⟩

/-- Every index of every face of `obj2`, shifted by the vertex count of `obj1`, still fits
`unsigned int`. -/
def NoWrap (obj1 obj2 : OBJ) : Prop :=
  ∀ f ∈ obj2.faces, ∀ lv ∈ f, obj1.numVertices + lv < uintModulus

instance noWrap_decidable (obj1 obj2 : OBJ) : Decidable (NoWrap obj1 obj2) :=
  inferInstanceAs (Decidable (∀ f ∈ obj2.faces, ∀ lv ∈ f, obj1.numVertices + lv < uintModulus))

/-- Indices of `subset` are valid in `vertices` and in `normals`. -/
def ValidSubset (obj : OBJ) (subset : List Nat) : Prop :=
  ∀ i ∈ subset, i < obj.numVertices ∧ i < obj.numNormals

instance validSubset_decidable (obj : OBJ) (subset : List Nat) :
    Decidable (ValidSubset obj subset) :=
  inferInstanceAs (Decidable (∀ i ∈ subset, i < obj.numVertices ∧ i < obj.numNormals))

/-- A mesh is well formed for decomposition: valid face indices and a normal for every
vertex. -/
def WellFormed (obj : OBJ) : Prop := ValidFaces obj ∧ obj.numVertices ≤ obj.numNormals

instance wellFormed_decidable (obj : OBJ) : Decidable (WellFormed obj) :=
  inferInstanceAs (Decidable (ValidFaces obj ∧ obj.numVertices ≤ obj.numNormals))

/-- Three isolated vertices. -/
def threePoints : OBJ :=
  ⟨[⟨3, 0, 0⟩, ⟨1, 0, 0⟩, ⟨2, 0, 0⟩], [⟨0, 0, 1⟩, ⟨0, 0, 1⟩, ⟨0, 0, 1⟩], []⟩

end OBJ

namespace OBJ

/-- The vertex `obj.vertices[c]` (the zero vector outside the range). -/
def vertexAt (obj : OBJ) (c : Nat) : Vector3 := obj.vertices.getD c Vector3.zero

/-- The arithmetic mean of the vertices selected by `subset`, component by component,
repeats counted. -/
def meanOf (obj : OBJ) (subset : List Nat) : Vector3 :=
  ⟨(subset.map (fun c => (vertexAt obj c).x)).sum / subset.length,
    (subset.map (fun c => (vertexAt obj c).y)).sum / subset.length,
    (subset.map (fun c => (vertexAt obj c).z)).sum / subset.length⟩

/-- The mesh without vertices, normals and faces. -/
def emptyMesh : OBJ := ⟨[], [], []⟩

/-- Face `f` has a vertex in `c`. -/
def touches (c f : List Nat) : Bool := f.any (fun v => decide (v ∈ c))

/-- A face of a sub-mesh read back through its component: new index `i` becomes
`component[i]`. -/
def mapBack (c g : List Nat) : List Nat := g.map (fun i => c.getD i 0)

/-- State of `old2newVertex` right after the first loop of `slice`: exactly the subset
entries are bound, each to its position. -/
def MapExact (subset : List Nat) (m : IndexMap) : Prop :=
  ∀ k, m.lookup k = if k ∈ subset then some (subset.indexOf k) else none

end OBJ

/-- A character that is a decimal digit. -/
def IsDigit (c : Char) : Prop := ∃ d, d < 10 ∧ c = digitChar d

/-- Value of a text of decimal digits read after the value `a`. -/
def digitsValue (ds : List Char) (a : Nat) : Nat :=
  ds.foldl (fun acc c => 10 * acc + (digitValue c).getD 0) a

namespace OBJ

/-- The token written for the index `v` of a face. -/
def indexToken (v : Nat) : List Char :=
  decimal ((v + 1) % uintModulus) ++ ['/', '/'] ++ decimal ((v + 1) % uintModulus)

end OBJ

/-- Extraction of an `unsigned int` from a text that starts with decimal digits: the value of
the leading digits, `acc` being the value read so far. -/
def readDigits : List Char → Nat → Nat
  | [], acc => acc
  | c :: cs, acc =>
    match digitValue c with
    | some d => readDigits cs (10 * acc + d)
    | none => acc

/-- The leading decimal digits of a text. -/
def leadingDigits (s : List Char) : List Char := s.takeWhile (fun c => (digitValue c).isSome)

/-- A coordinate in fixed notation with 18 decimals, cut off after the last one. -/
def showFixed (q : ℚ) : List Char :=
  let n : Nat := (|q| * 1000000000000000000).floor.toNat
  let frac : List Char := decimal (n % 1000000000000000000)
  (if q < 0 then ['-'] else []) ++ decimal (n / 1000000000000000000) ++ ['.']
    ++ List.replicate (18 - frac.length) '0' ++ frac

/-- Reads a coordinate in fixed notation: sign, integral digits, and decimals after a point. -/
def readFixed (s : List Char) : ℚ :=
  let body : List Char := if s.head? = some '-' then s.tail else s
  let int : List Char := leadingDigits body
  let rest : List Char := body.drop int.length
  let frac : List Char := if rest.head? = some '.' then leadingDigits rest.tail else []
  let value : ℚ := (readDigits int 0 : ℚ) + (readDigits frac 0 : ℚ) / (10 : ℚ) ^ frac.length
  if s.head? = some '-' then -value else value

/-- One admissible stream library: coordinates in fixed notation, integers read from their
leading decimal digits, values beyond the range of `unsigned int` read as its maximum. -/
def plainStream : StreamLib where
  showScalar := showFixed
  readScalar := readFixed
  readUInt := fun s => min (readDigits s 0) (uintModulus - 1)

namespace OBJ

/-- A coordinate triple written by `toFile` and read back by `fromFile`. -/
def reread (L : StreamLib) (p : Vector3) : Vector3 :=
  ⟨L.readScalar (L.showScalar p.x), L.readScalar (L.showScalar p.y),
    L.readScalar (L.showScalar p.z)⟩

/-- Every face index is a value of `unsigned int`. -/
def IndicesInRange (obj : OBJ) : Prop := ∀ f ∈ obj.faces, ∀ v ∈ f, v < uintModulus

/-- Vertices `(0,0,0)`, `(1,0,0)`, `(0,1,0)` with the face `[0, 1, 2]` and no normals. -/
def bareTriangle : OBJ := ⟨[⟨0, 0, 0⟩, ⟨1, 0, 0⟩, ⟨0, 1, 0⟩], [], [[0, 1, 2]]⟩

end OBJ

/-! ## Theorems -/

namespace OBJ

namespace Graph

theorem emplaceAt_some {adj : List (List Nat)} {i : Nat} (x : Nat) (h : i < adj.length) :
    ∃ adj1, emplaceAt adj i x = some adj1 := by
  unfold emplaceAt
  rw [List.getElem?_eq_getElem h]
  exact ⟨_, rfl⟩

theorem emplaceAt_spec {adj adj1 : List (List Nat)} {i x : Nat}
    (h : emplaceAt adj i x = some adj1) :
    adj1.length = adj.length ∧ ∀ a b, Adj adj1 a b ↔ (Adj adj a b ∨ (a = i ∧ b = x)) := by
  unfold emplaceAt at h
  cases hi : adj[i]? with
  | none => rw [hi] at h; simp at h
  | some l =>
    rw [hi] at h
    simp only [Option.some.injEq] at h
    subst h
    have hlt : i < adj.length := by
      by_contra hc
      rw [List.getElem?_eq_none (not_lt.mp hc)] at hi
      simp at hi
    refine ⟨List.length_set _ _ _, fun a b => ?_⟩
    unfold Adj
    by_cases hai : a = i
    · subst hai
      rw [List.getElem?_set_self hlt, hi]
      constructor
      · rintro ⟨l1, h1, h2⟩
        simp only [Option.some.injEq] at h1
        subst h1
        rcases List.mem_append.mp h2 with h3 | h3
        · exact Or.inl ⟨l, rfl, h3⟩
        · exact Or.inr ⟨rfl, by simpa using h3⟩
      · rintro (⟨l1, h1, h2⟩ | ⟨_, h2⟩)
        · simp only [Option.some.injEq] at h1
          subst h1
          exact ⟨_, rfl, List.mem_append_left _ h2⟩
        · subst h2
          exact ⟨_, rfl, by simp⟩
    · rw [List.getElem?_set_ne (Ne.symm hai)]
      constructor
      · intro h1; exact Or.inl h1
      · rintro (h1 | ⟨h1, _⟩)
        · exact h1
        · exact absurd h1 hai

theorem addEdge_some {adj : List (List Nat)} {v1 v2 : Nat} (h1 : v1 < adj.length)
    (h2 : v2 < adj.length) : ∃ adj1, addEdge adj v1 v2 = some adj1 := by
  unfold addEdge
  obtain ⟨a1, ha1⟩ := emplaceAt_some v2 h1
  rw [ha1]
  have hl := (emplaceAt_spec ha1).1
  exact emplaceAt_some v1 (by rw [hl]; exact h2)

theorem addEdge_spec {adj adj1 : List (List Nat)} {v1 v2 : Nat}
    (h : addEdge adj v1 v2 = some adj1) :
    adj1.length = adj.length ∧
      ∀ a b, Adj adj1 a b ↔ (Adj adj a b ∨ (a = v1 ∧ b = v2) ∨ (a = v2 ∧ b = v1)) := by
  unfold addEdge at h
  cases h1 : emplaceAt adj v1 v2 with
  | none => rw [h1] at h; simp at h
  | some a1 =>
    rw [h1] at h
    simp only [Option.some_bind] at h
    have s1 := emplaceAt_spec h1
    have s2 := emplaceAt_spec h
    refine ⟨s2.1.trans s1.1, fun a b => ?_⟩
    rw [s2.2, s1.2]
    tauto

theorem addFace_spec (face : List Nat) : ∀ (idxs : List Nat) (adj adj1 : List (List Nat)),
    addFace face idxs adj = some adj1 →
    adj1.length = adj.length ∧
      ∀ a b, Adj adj1 a b ↔ (Adj adj a b ∨ ∃ k ∈ idxs, EdgeAt face k a b) := by
  intro idxs
  induction idxs with
  | nil =>
    intro adj adj1 h
    simp only [addFace, Option.some.injEq] at h
    subst h
    simp
  | cons k rest ih =>
    intro adj adj1 h
    unfold addFace at h
    cases h1 : face[k - 1]? with
    | none => rw [h1] at h; simp at h
    | some v1 =>
      cases h2 : face[k]? with
      | none => rw [h1, h2] at h; simp at h
      | some v2 =>
        rw [h1, h2] at h
        simp only at h
        cases h3 : addEdge adj v1 v2 with
        | none => rw [h3] at h; simp at h
        | some a1 =>
          rw [h3] at h
          simp only [Option.some_bind] at h
          have s1 := addEdge_spec h3
          have s2 := ih a1 adj1 h
          refine ⟨s2.1.trans s1.1, fun a b => ?_⟩
          rw [s2.2, s1.2]
          simp only [List.mem_cons, exists_eq_or_imp, EdgeAt, h1, h2, Option.some.injEq]
          constructor
          · rintro ((h4 | ⟨h4, h5⟩ | ⟨h4, h5⟩) | h4)
            · exact Or.inl h4
            · exact Or.inr (Or.inl (Or.inl ⟨h4.symm, h5.symm⟩))
            · exact Or.inr (Or.inl (Or.inr ⟨h5.symm, h4.symm⟩))
            · exact Or.inr (Or.inr h4)
          · rintro (h4 | (⟨h4, h5⟩ | ⟨h4, h5⟩) | h4)
            · exact Or.inl (Or.inl h4)
            · exact Or.inl (Or.inr (Or.inl ⟨h4.symm, h5.symm⟩))
            · exact Or.inl (Or.inr (Or.inr ⟨h5.symm, h4.symm⟩))
            · exact Or.inr h4

theorem addFace_some (face : List Nat) : ∀ (idxs : List Nat) (adj : List (List Nat)),
    (∀ k ∈ idxs, 1 ≤ k ∧ k < face.length) → (∀ v ∈ face, v < adj.length) →
    ∃ adj1, addFace face idxs adj = some adj1 := by
  intro idxs
  induction idxs with
  | nil => intro adj _ _; exact ⟨adj, rfl⟩
  | cons k rest ih =>
    intro adj hk hv
    obtain ⟨hk1, hk2⟩ := hk k (List.mem_cons_self _ _)
    unfold addFace
    have e1 : face[k - 1]? = some (face[k - 1]) := List.getElem?_eq_getElem (by omega)
    have e2 : face[k]? = some (face[k]) := List.getElem?_eq_getElem hk2
    rw [e1, e2]
    simp only
    obtain ⟨a1, ha1⟩ := addEdge_some (hv _ (List.getElem_mem _)) (hv _ (List.getElem_mem _))
    rw [ha1]
    simp only [Option.some_bind]
    have hl := (addEdge_spec ha1).1
    exact ih a1 (fun j hj => hk j (List.mem_cons_of_mem _ hj))
      (fun v hv1 => by rw [hl]; exact hv v hv1)

theorem edgeAt_range_iff (face : List Nat) (a b : Nat) :
    (∃ k ∈ List.range' 1 (face.length - 1), EdgeAt face k a b) ↔
      (Consecutive face a b ∨ Consecutive face b a) := by
  unfold EdgeAt Consecutive
  constructor
  · rintro ⟨k, hk, h⟩
    obtain ⟨i, _, rfl⟩ := List.mem_range'.mp hk
    have e : 1 + 1 * i - 1 = i := by omega
    have e2 : 1 + 1 * i = i + 1 := by omega
    rw [e, e2] at h
    rcases h with h | h
    · exact Or.inl ⟨i, h⟩
    · exact Or.inr ⟨i, h⟩
  · have key : ∀ i c, face[i + 1]? = some c → i + 1 ∈ List.range' 1 (face.length - 1) := by
      intro i c hc
      have hlt : i + 1 < face.length := by
        by_contra hcon
        rw [List.getElem?_eq_none (not_lt.mp hcon)] at hc
        simp at hc
      exact List.mem_range'.mpr ⟨i, by omega, by omega⟩
    rintro (⟨i, h1, h2⟩ | ⟨i, h1, h2⟩)
    · exact ⟨i + 1, key i _ h2, Or.inl ⟨by simpa using h1, h2⟩⟩
    · exact ⟨i + 1, key i _ h2, Or.inr ⟨by simpa using h1, h2⟩⟩

theorem addFaces_spec : ∀ (faces : List (List Nat)) (adj adj1 : List (List Nat)),
    addFaces faces adj = some adj1 →
    adj1.length = adj.length ∧
      ∀ a b, Adj adj1 a b ↔
        (Adj adj a b ∨ ∃ f ∈ faces, Consecutive f a b ∨ Consecutive f b a) := by
  intro faces
  induction faces with
  | nil =>
    intro adj adj1 h
    simp only [addFaces, Option.some.injEq] at h
    subst h
    simp
  | cons f rest ih =>
    intro adj adj1 h
    unfold addFaces at h
    cases h1 : addFace f (List.range' 1 (f.length - 1)) adj with
    | none => rw [h1] at h; simp at h
    | some a1 =>
      rw [h1] at h
      simp only [Option.some_bind] at h
      have s1 := addFace_spec f _ _ _ h1
      have s2 := ih a1 adj1 h
      refine ⟨s2.1.trans s1.1, fun a b => ?_⟩
      rw [s2.2, s1.2, edgeAt_range_iff]
      simp only [List.mem_cons, exists_eq_or_imp]
      exact or_assoc

theorem addFaces_some : ∀ (faces : List (List Nat)) (adj : List (List Nat)),
    (∀ f ∈ faces, ∀ v ∈ f, v < adj.length) → ∃ adj1, addFaces faces adj = some adj1 := by
  intro faces
  induction faces with
  | nil => intro adj _; exact ⟨adj, rfl⟩
  | cons f rest ih =>
    intro adj hv
    unfold addFaces
    obtain ⟨a1, ha1⟩ := addFace_some f (List.range' 1 (f.length - 1)) adj
      (fun k hk => by
        obtain ⟨i, hi, rfl⟩ := List.mem_range'.mp hk
        omega)
      (hv f (List.mem_cons_self _ _))
    rw [ha1]
    simp only [Option.some_bind]
    have hl := (addFace_spec f _ _ _ ha1).1
    exact ih a1 (fun g hg v hv1 => by rw [hl]; exact hv g (List.mem_cons_of_mem _ hg) v hv1)

/-- The constructor succeeds on valid faces and records exactly the face-induced edges. -/
theorem ofOBJ_spec (obj : OBJ) (hv : ValidFaces obj) :
    ∃ g, ofOBJ obj = some g ∧ g.numVertices_ = obj.numVertices ∧
      g.adjLists_.length = obj.numVertices ∧
      g.visited_ = List.replicate obj.numVertices false ∧ g.connectedComponents_ = [] ∧
      ∀ a b, Adj g.adjLists_ a b ↔ FaceEdge obj a b := by
  obtain ⟨adj, hadj⟩ := addFaces_some obj.faces (List.replicate obj.numVertices [])
    (by simpa using hv)
  have s := addFaces_spec _ _ _ hadj
  refine ⟨_, by unfold ofOBJ; rw [hadj]; rfl, rfl, by simpa using s.1, rfl, rfl, fun a b => ?_⟩
  show Adj adj a b ↔ _
  rw [s.2]
  unfold FaceEdge
  constructor
  · rintro (⟨l, h1, h2⟩ | h)
    · rw [List.getElem?_replicate] at h1
      split at h1
      · simp only [Option.some.injEq] at h1
        subst h1
        simp at h2
      · simp at h1
    · exact h
  · intro h; exact Or.inr h

theorem Reach.mono {adj : List (List Nat)} {S T : List Nat} (hST : ∀ u ∈ S, u ∈ T) {x y : Nat}
    (h : Reach adj S x y) : Reach adj T x y :=
  Relation.ReflTransGen.mono (fun _ _ hab => ⟨hST _ hab.1, hST _ hab.2.1, hab.2.2⟩) h

theorem DfsPost.wf {g g1 : Graph} {init : List (List Nat)} {last new : List Nat} {N : Nat}
    (p : DfsPost g g1 init last new) (h : WF g N) : WF g1 N :=
  ⟨p.nv.trans h.nv, by rw [p.adj]; exact h.adjLen, by rw [p.adj]; exact h.adjLt,
    p.visLen.trans h.visLen⟩

theorem emplaceBackLast_append (init : List (List Nat)) (last : List Nat) (v : Nat) :
    emplaceBackLast (init ++ [last]) v = some (init ++ [last ++ [v]]) := by
  induction init with
  | nil => rfl
  | cons c rest ih =>
    cases rest with
    | nil => rfl
    | cons d rest1 =>
      show Option.map _ (emplaceBackLast ((d :: rest1) ++ [last]) v) = _
      rw [ih]
      rfl

theorem visited_cases {g : Graph} {N : Nat} (h : WF g N) {v : Nat} (hv : v < N) :
    g.visited_[v]? = some true ∨ g.visited_[v]? = some false := by
  have hlt : v < g.visited_.length := by rw [h.visLen]; exact hv
  rw [List.getElem?_eq_getElem hlt]
  cases g.visited_[v] <;> simp

theorem not_vis_iff {g : Graph} {N : Nat} (h : WF g N) {v : Nat} (hv : v < N) :
    ¬ Vis g v ↔ g.visited_[v]? = some false := by
  unfold Vis
  rcases visited_cases h hv with h1 | h1 <;> rw [h1] <;> simp

theorem vis_lt {g : Graph} {N : Nat} (h : WF g N) {v : Nat} (hv : Vis g v) : v < N := by
  unfold Vis at hv
  by_contra hc
  rw [List.getElem?_eq_none (by rw [h.visLen]; exact not_lt.mp hc)] at hv
  simp at hv

theorem count_false_pos {l : List Bool} {v : Nat} (h : l[v]? = some false) :
    0 < l.count false :=
  List.count_pos_iff.mpr (List.mem_iff_getElem?.mpr ⟨v, h⟩)

theorem count_false_set {l : List Bool} {v : Nat} (h : l[v]? = some false) :
    (l.set v true).count false + 1 = l.count false := by
  have hlt : v < l.length := by
    by_contra hc
    rw [List.getElem?_eq_none (not_lt.mp hc)] at h
    simp at h
  have hv : l[v] = false := by
    rw [List.getElem?_eq_getElem hlt] at h
    simpa using h
  have hp := count_false_pos h
  rw [List.count_set _ _ _ _ hlt, hv]
  simp
  omega

theorem dfsLoop_spec (N fuel : Nat)
    (IH : ∀ (g : Graph) (v : Nat) (init : List (List Nat)) (last : List Nat),
      WF g N → v < N → ¬ Vis g v → g.visited_.count false ≤ fuel →
      g.connectedComponents_ = init ++ [last] →
      ∃ g1 new, dfsUtil fuel g v = some g1 ∧ DfsPost g g1 init last (v :: new) ∧
        ∀ u ∈ v :: new, Reach g.adjLists_ (v :: new) v u) :
    ∀ (nbrs : List Nat) (s : Graph) (init : List (List Nat)) (cur : List Nat),
      WF s N → (∀ w ∈ nbrs, w < N) → s.visited_.count false ≤ fuel →
      s.connectedComponents_ = init ++ [cur] →
      ∃ s1 added, dfsLoop (dfsUtil fuel) s nbrs = some s1 ∧ DfsPost s s1 init cur added ∧
        (∀ w ∈ nbrs, Vis s1 w) ∧
        ∀ u ∈ added, ∃ i ∈ nbrs, i ∈ added ∧ Reach s.adjLists_ added i u := by
  intro nbrs
  induction nbrs with
  | nil =>
    intro s init cur _ _ _ hccs
    refine ⟨s, [], rfl, ⟨rfl, rfl, rfl, by simpa using hccs, List.nodup_nil, by simp, by simp,
      by simp, by simp⟩, by simp, by simp⟩
  | cons i rest ih =>
    intro s init cur hwf hlt hcnt hccs
    have hi : i < N := hlt i (List.mem_cons_self _ _)
    have hrest : ∀ w ∈ rest, w < N := fun w hw => hlt w (List.mem_cons_of_mem _ hw)
    rcases visited_cases hwf hi with hvi | hvi
    · obtain ⟨s1, added, hrun, post, hn, hr⟩ := ih s init cur hwf hrest hcnt hccs
      refine ⟨s1, added, ?_, post, ?_, ?_⟩
      · show (match s.visited_[i]? with
          | none => none
          | some true => dfsLoop (dfsUtil fuel) s rest
          | some false => (dfsUtil fuel s i).bind (fun g1 => dfsLoop (dfsUtil fuel) g1 rest)) = _
        rw [hvi]
        exact hrun
      · intro w hw
        rcases List.mem_cons.mp hw with rfl | hw1
        · exact (post.vis _).mpr (Or.inl hvi)
        · exact hn w hw1
      · intro u hu
        obtain ⟨j, hj, hja, hreach⟩ := hr u hu
        exact ⟨j, List.mem_cons_of_mem _ hj, hja, hreach⟩
    · obtain ⟨g1, new1, hrun1, post1, hreach1⟩ :=
        IH s i init cur hwf hi ((not_vis_iff hwf hi).mpr hvi) hcnt hccs
      have hwf1 := post1.wf hwf
      have hcnt1 : g1.visited_.count false ≤ fuel := by
        have := post1.cnt
        omega
      obtain ⟨s1, added2, hrun2, post2, hn2, hr2⟩ :=
        ih g1 init (cur ++ i :: new1) hwf1 hrest hcnt1 post1.ccs
      refine ⟨s1, (i :: new1) ++ added2, ?_, ⟨?_, ?_, ?_, ?_, ?_, ?_, ?_, ?_, ?_⟩, ?_, ?_⟩
      · show (match s.visited_[i]? with
          | none => none
          | some true => dfsLoop (dfsUtil fuel) s rest
          | some false => (dfsUtil fuel s i).bind (fun g1 => dfsLoop (dfsUtil fuel) g1 rest)) = _
        rw [hvi]
        simp only [hrun1, Option.some_bind]
        exact hrun2
      · exact post2.adj.trans post1.adj
      · exact post2.nv.trans post1.nv
      · exact post2.visLen.trans post1.visLen
      · rw [post2.ccs, List.append_assoc]
      · refine List.Nodup.append post1.nodup post2.nodup ?_
        intro u hu1 hu2
        exact post2.fresh u hu2 ((post1.vis u).mpr (Or.inr hu1))
      · intro u
        rw [post2.vis, post1.vis, List.mem_append, or_assoc]
      · intro u hu
        rcases List.mem_append.mp hu with h1 | h2
        · exact post1.fresh u h1
        · exact fun hv => post2.fresh u h2 ((post1.vis u).mpr (Or.inl hv))
      · have c1 := post1.cnt
        have c2 := post2.cnt
        rw [List.length_append]
        omega
      · intro u hu w hadj
        rcases List.mem_append.mp hu with h1 | h2
        · exact (post2.vis w).mpr (Or.inl (post1.closed u h1 w hadj))
        · exact post2.closed u h2 w (by rw [post1.adj]; exact hadj)
      · intro w hw
        rcases List.mem_cons.mp hw with rfl | hw1
        · exact (post2.vis _).mpr (Or.inl ((post1.vis _).mpr (Or.inr (List.mem_cons_self _ _))))
        · exact hn2 w hw1
      · intro u hu
        rcases List.mem_append.mp hu with h1 | h2
        · exact ⟨i, List.mem_cons_self _ _, List.mem_append_left _ (List.mem_cons_self _ _),
            (hreach1 u h1).mono (fun x hx => List.mem_append_left _ hx)⟩
        · obtain ⟨j, hj, hja, hreach⟩ := hr2 u h2
          rw [post1.adj] at hreach
          exact ⟨j, List.mem_cons_of_mem _ hj, List.mem_append_right _ hja,
            hreach.mono (fun x hx => List.mem_append_right _ hx)⟩

/-- Specification of `dfsUtil`: with fuel for every unvisited vertex the call returns, and it
appends to the current component `v` followed by freshly visited vertices that are all
reached from `v` inside the appended part and whose neighbours are all visited. -/
theorem dfsUtil_spec (N : Nat) : ∀ (fuel : Nat) (g : Graph) (v : Nat) (init : List (List Nat))
    (last : List Nat),
    WF g N → v < N → ¬ Vis g v → g.visited_.count false ≤ fuel →
    g.connectedComponents_ = init ++ [last] →
    ∃ g1 new, dfsUtil fuel g v = some g1 ∧ DfsPost g g1 init last (v :: new) ∧
      ∀ u ∈ v :: new, Reach g.adjLists_ (v :: new) v u := by
  intro fuel
  induction fuel with
  | zero =>
    intro g v init last hwf hv hnv hcnt _
    have := count_false_pos ((not_vis_iff hwf hv).mp hnv)
    omega
  | succ fuel ih =>
    intro g v init last hwf hv hnv hcnt hccs
    have hvf := (not_vis_iff hwf hv).mp hnv
    have hvl : v < g.visited_.length := by rw [hwf.visLen]; exact hv
    have hal : v < g.adjLists_.length := by rw [hwf.adjLen]; exact hv
    have hset := count_false_set hvf
    let g2 : Graph :=
      { g with visited_ := g.visited_.set v true, connectedComponents_ := init ++ [last ++ [v]] }
    have hwf2 : WF g2 N :=
      ⟨hwf.nv, hwf.adjLen, hwf.adjLt, by show (g.visited_.set v true).length = N; simp [hwf.visLen]⟩
    have hvis2 : ∀ u, Vis g2 u ↔ (Vis g u ∨ u = v) := by
      intro u
      show (g.visited_.set v true)[u]? = some true ↔ _
      rw [List.getElem?_set]
      by_cases huv : v = u
      · subst huv
        simp [hvl]
      · simp only [huv, if_false]
        constructor
        · exact fun h => Or.inl h
        · rintro (h | h)
          · exact h
          · exact absurd h.symm huv
    obtain ⟨s1, added, hrun, post, hn, hr⟩ :=
      dfsLoop_spec N fuel ih (g.adjLists_[v]) g2 init (last ++ [v]) hwf2
        (fun w hw => hwf.adjLt v w ⟨_, List.getElem?_eq_getElem hal, hw⟩)
        (by show (g.visited_.set v true).count false ≤ fuel; omega) rfl
    have hvnot : v ∉ added := fun hmem => post.fresh v hmem ((hvis2 v).mpr (Or.inr rfl))
    refine ⟨s1, added, ?_, ⟨?_, ?_, ?_, ?_, ?_, ?_, ?_, ?_, ?_⟩, ?_⟩
    · unfold dfsUtil
      rw [if_pos hvl, hccs, emplaceBackLast_append, List.getElem?_eq_getElem hal]
      exact hrun
    · exact post.adj
    · exact post.nv
    · rw [post.visLen]
      show (g.visited_.set v true).length = _
      simp
    · rw [post.ccs, List.append_assoc]
      rfl
    · exact List.nodup_cons.mpr ⟨hvnot, post.nodup⟩
    · intro u
      rw [post.vis, hvis2, List.mem_cons, or_assoc]
    · intro u hu
      rcases List.mem_cons.mp hu with rfl | h1
      · exact hnv
      · exact fun hv1 => post.fresh u h1 ((hvis2 u).mpr (Or.inl hv1))
    · have c := post.cnt
      have c2 : g2.visited_.count false = (g.visited_.set v true).count false := rfl
      rw [List.length_cons]
      omega
    · intro u hu w hadj
      rcases List.mem_cons.mp hu with rfl | h1
      · obtain ⟨l, hl1, hl2⟩ := hadj
        rw [List.getElem?_eq_getElem hal] at hl1
        simp only [Option.some.injEq] at hl1
        subst hl1
        exact hn w hl2
      · exact post.closed u h1 w hadj
    · intro u hu
      rcases List.mem_cons.mp hu with rfl | h1
      · exact Relation.ReflTransGen.refl
      · obtain ⟨i, hi, hia, hreach⟩ := hr u h1
        have hstep : (fun a b => a ∈ v :: added ∧ b ∈ v :: added ∧ Adj g.adjLists_ a b) v i :=
          ⟨List.mem_cons_self _ _, List.mem_cons_of_mem _ hia,
            ⟨_, List.getElem?_eq_getElem hal, hi⟩⟩
        exact Relation.ReflTransGen.head hstep
          (Reach.mono (fun x hx => List.mem_cons_of_mem _ hx) hreach)

theorem ccLoop_spec (N : Nat) : ∀ (n k : Nat) (s : Graph) (done : List (List Nat))
    (heads : List Nat), k + n = N → WF s N →
    (∀ a b, Adj s.adjLists_ a b → Adj s.adjLists_ b a) → CcInv s done heads k →
    ∃ s1 done1 heads1, ccLoop s (List.range' k n) = some s1 ∧ s1.adjLists_ = s.adjLists_ ∧
      WF s1 N ∧ CcInv s1 done1 heads1 N := by
  intro n
  induction n with
  | zero =>
    intro k s done heads hk hwf _ inv
    have : k = N := by omega
    subst this
    exact ⟨s, done, heads, rfl, rfl, hwf, inv⟩
  | succ n ih =>
    intro k s done heads hk hwf hsym inv
    have hkN : k < N := by omega
    rw [List.range'_succ]
    rcases visited_cases hwf hkN with hvk | hvk
    · have inv1 : CcInv s done heads (k + 1) :=
        { inv with
          below := fun u hu => by
            rcases Nat.lt_succ_iff_lt_or_eq.mp hu with h | h
            · exact inv.below u h
            · subst h; exact hvk
          headsLt := fun h hh => Nat.lt_succ_of_lt (inv.headsLt h hh) }
      obtain ⟨s1, done1, heads1, hrun, hadj, hwf1, inv2⟩ :=
        ih (k + 1) s done heads (by omega) hwf hsym inv1
      refine ⟨s1, done1, heads1, ?_, hadj, hwf1, inv2⟩
      unfold ccLoop
      rw [hvk]
      exact hrun
    · have hnv : ¬ Vis s k := (not_vis_iff hwf hkN).mpr hvk
      have hcnt : s.visited_.count false ≤ N := by
        rw [← hwf.visLen]
        exact List.count_le_length _ _
      obtain ⟨g1, new, hrun1, post, hreach⟩ :=
        dfsUtil_spec N N s k done [] hwf hkN hnv hcnt inv.ccs
      have hwf1 := post.wf hwf
      let s2 : Graph := { g1 with connectedComponents_ := g1.connectedComponents_ ++ [[]] }
      have hwf2 : WF s2 N := ⟨hwf1.nv, hwf1.adjLen, hwf1.adjLt, hwf1.visLen⟩
      have hadj2 : s2.adjLists_ = s.adjLists_ := post.adj
      have hfresh : ∀ u ∈ k :: new, u ∉ done.flatten :=
        fun u hu hmem => post.fresh u hu ((inv.vis u).mpr hmem)
      have inv2 : CcInv s2 (done ++ [k :: new]) (heads ++ [k]) (k + 1) := by
        refine ⟨?_, ?_, ?_, ?_, ?_, ?_, ?_, ?_⟩
        · show g1.connectedComponents_ ++ [[]] = _
          rw [post.ccs]
          rfl
        · rw [List.flatten_concat]
          exact List.Nodup.append inv.nodup post.nodup (fun u h1 h2 => hfresh u h2 h1)
        · intro u
          show Vis g1 u ↔ _
          rw [post.vis, inv.vis, List.flatten_concat, List.mem_append]
        · intro u hu
          show Vis g1 u
          rw [post.vis]
          rcases Nat.lt_succ_iff_lt_or_eq.mp hu with h | h
          · exact Or.inl (inv.below u h)
          · subst h; exact Or.inr (List.mem_cons_self _ _)
        · intro c hc u hu w hadj
          rw [hadj2] at hadj
          rcases List.mem_append.mp hc with h1 | h1
          · exact inv.closed c h1 u hu w hadj
          · simp only [List.mem_singleton] at h1
            subst h1
            have hw := post.closed u hu w hadj
            rw [post.vis] at hw
            rcases hw with hw | hw
            · exfalso
              obtain ⟨c1, hc1, hwc1⟩ := List.mem_flatten.mp ((inv.vis w).mp hw)
              have huc1 := inv.closed c1 hc1 w hwc1 u (hsym _ _ hadj)
              exact hfresh u hu (List.mem_flatten.mpr ⟨c1, hc1, huc1⟩)
            · exact hw
        · intro h hh
          rcases List.mem_append.mp hh with h1 | h1
          · exact Nat.lt_succ_of_lt (inv.headsLt h h1)
          · simp only [List.mem_singleton] at h1
            omega
        · rw [List.pairwise_append]
          refine ⟨inv.headsSorted, List.pairwise_singleton _ _, ?_⟩
          intro a ha b hb
          simp only [List.mem_singleton] at hb
          subst hb
          exact inv.headsLt a ha
        · rw [hadj2]
          refine List.rel_append inv.heads (List.Forall₂.cons ?_ List.Forall₂.nil)
          refine ⟨new, rfl, ?_, hreach⟩
          intro u hu
          by_contra hlt
          exact post.fresh u hu (inv.below u (not_le.mp hlt))
      obtain ⟨s3, done3, heads3, hrun3, hadj3, hwf3, inv3⟩ :=
        ih (k + 1) s2 (done ++ [k :: new]) (heads ++ [k]) (by omega) hwf2
          (by rw [hadj2]; exact hsym) inv2
      refine ⟨s3, done3, heads3, ?_, hadj3.trans hadj2, hwf3, inv3⟩
      unfold ccLoop
      rw [hvk]
      simp only
      rw [hwf.nv, hrun1]
      exact hrun3

theorem faceEdge_symm {obj : OBJ} {a b : Nat} (h : FaceEdge obj a b) : FaceEdge obj b a := by
  obtain ⟨f, hf, h1⟩ := h
  exact ⟨f, hf, h1.symm⟩

/-- The traversal returns on every mesh with valid faces, and its result has the properties
collected in `Components`. -/
theorem getConnectedComponents_spec (obj : OBJ) (hv : ValidFaces obj) :
    ∃ g ccs, ofOBJ obj = some g ∧ getConnectedComponents g = some ccs ∧ Components obj ccs := by
  obtain ⟨g, hg, hnv, hlen, hvis, hccs, hadj⟩ := ofOBJ_spec obj hv
  let g0 : Graph :=
    { g with connectedComponents_ := [[]], visited_ := List.replicate g.numVertices_ false }
  have hwf0 : WF g0 obj.numVertices := by
    refine ⟨hnv, hlen, ?_, by show (List.replicate g.numVertices_ false).length = _; simp [hnv]⟩
    intro a b hab
    obtain ⟨f, hf, h1⟩ := (hadj a b).mp hab
    rcases h1 with ⟨i, _, h2⟩ | ⟨i, h2, _⟩
    · exact hv f hf b (List.mem_iff_getElem?.mpr ⟨_, h2⟩)
    · exact hv f hf b (List.mem_iff_getElem?.mpr ⟨_, h2⟩)
  have hsym : ∀ a b, Adj g0.adjLists_ a b → Adj g0.adjLists_ b a :=
    fun a b hab => (hadj b a).mpr (faceEdge_symm ((hadj a b).mp hab))
  have inv0 : CcInv g0 [] [] 0 := by
    refine ⟨rfl, by simp, ?_, by simp, by simp, by simp, List.Pairwise.nil, List.Forall₂.nil⟩
    intro u
    show (List.replicate g.numVertices_ false)[u]? = some true ↔ _
    rw [List.getElem?_replicate]
    split <;> simp
  obtain ⟨s1, done, heads, hrun, hadj1, hwf1, inv⟩ :=
    ccLoop_spec obj.numVertices obj.numVertices 0 g0 [] [] (by omega) hwf0 hsym inv0
  have hadj1g : s1.adjLists_ = g.adjLists_ := hadj1
  refine ⟨g, done, hg, ?_, ?_, ?_, ?_, ?_⟩
  · have e : connectedComponents g = some { s1 with connectedComponents_ := done } := by
      unfold connectedComponents
      show (ccLoop g0 (List.range g.numVertices_)).bind _ = _
      rw [List.range_eq_range', hnv, hrun]
      simp only [Option.some_bind, inv.ccs, List.getLast?_concat, List.isEmpty_nil, if_true,
        List.dropLast_concat]
    unfold getConnectedComponents
    rw [hccs, e]
    rfl
  · exact inv.nodup
  · intro u
    rw [← inv.vis]
    constructor
    · exact fun h => vis_lt hwf1 h
    · exact fun h => inv.below u h
  · intro c hc u hu w hfe
    exact inv.closed c hc u hu w (by rw [hadj1g]; exact (hadj u w).mpr hfe)
  · refine ⟨heads, inv.headsSorted, inv.heads.imp ?_⟩
    rintro h c ⟨t, ht, hmin, hreach⟩
    refine ⟨t, ht, hmin, fun u hu => ?_⟩
    refine Relation.ReflTransGen.mono ?_ (hreach u hu)
    intro a b hab
    exact ⟨hab.1, hab.2.1, (hadj a b).mp (by rw [← hadj1g]; exact hab.2.2)⟩

end Graph

theorem lookup_cons_eq (m : IndexMap) (k v k2 : Nat) :
    List.lookup k2 ((k, v) :: m) = if k2 = k then some v else List.lookup k2 m := by
  rw [List.lookup_cons]
  by_cases h : k2 = k
  · subst h; simp
  · have : (k2 == k) = false := by simpa using h
    rw [this]
    simp [h]

theorem sliceVertices_spec (obj : OBJ) : ∀ (rest : List Nat) (v : Nat) (ret : OBJ) (m : IndexMap),
    (∀ i ∈ rest, i < obj.vertices.length ∧ i < obj.normals.length) →
    ∃ ps ns m1,
      sliceVertices obj rest v (ret, m)
        = some (⟨ret.vertices ++ ps, ret.normals ++ ns, ret.faces⟩, m1) ∧
      List.Forall₂ (fun i p => obj.vertices[i]? = some p) rest ps ∧
      List.Forall₂ (fun i n => obj.normals[i]? = some n) rest ns ∧
      (∀ k, k ∉ rest → m1.lookup k = m.lookup k) ∧
      (rest.Nodup → ∀ j k, rest[j]? = some k → m1.lookup k = some (v + j)) := by
  intro rest
  induction rest with
  | nil =>
    intro v ret m _
    exact ⟨[], [], m, by simp [sliceVertices], List.Forall₂.nil, List.Forall₂.nil,
      fun _ _ => rfl, fun _ j k h => by simp at h⟩
  | cons idx rest ih =>
    intro v ret m hval
    obtain ⟨h1, h2⟩ := hval idx (List.mem_cons_self _ _)
    obtain ⟨ps, ns, m1, hrun, hps, hns, hout, hin⟩ :=
      ih (v + 1)
        { ret with vertices := ret.vertices ++ [obj.vertices[idx]],
                   normals := ret.normals ++ [obj.normals[idx]] }
        (m.assign idx v) (fun i hi => hval i (List.mem_cons_of_mem _ hi))
    refine ⟨obj.vertices[idx] :: ps, obj.normals[idx] :: ns, m1, ?_, ?_, ?_, ?_, ?_⟩
    · unfold sliceVertices
      rw [List.getElem?_eq_getElem h1, List.getElem?_eq_getElem h2]
      simp only
      rw [hrun]
      simp
    · exact List.Forall₂.cons (List.getElem?_eq_getElem h1) hps
    · exact List.Forall₂.cons (List.getElem?_eq_getElem h2) hns
    · intro k hk
      rw [hout k (fun hmem => hk (List.mem_cons_of_mem _ hmem))]
      show List.lookup k ((idx, v) :: m) = _
      rw [lookup_cons_eq, if_neg (fun h => hk (by rw [h]; exact List.mem_cons_self _ _))]
    · intro hnd j k hjk
      obtain ⟨hnot, hnd1⟩ := List.nodup_cons.mp hnd
      cases j with
      | zero =>
        simp only [List.getElem?_cons_zero, Option.some.injEq] at hjk
        subst hjk
        rw [hout _ hnot]
        show List.lookup idx ((idx, v) :: m) = _
        rw [lookup_cons_eq, if_pos rfl]
        rfl
      | succ j =>
        simp only [List.getElem?_cons_succ] at hjk
        rw [hin hnd1 j k hjk]
        congr 1
        omega

theorem indexOf_of_getElem? {l : List Nat} (hnd : l.Nodup) {j k : Nat} (h : l[j]? = some k) :
    l.indexOf k = j := by
  have hlt : j < l.length := by
    by_contra hc
    rw [List.getElem?_eq_none (not_lt.mp hc)] at h
    simp at h
  rw [List.getElem?_eq_getElem hlt] at h
  simp only [Option.some.injEq] at h
  subst h
  exact List.indexOf_getElem hnd j hlt

theorem remapIndex_getElem? {l : List Nat} (hnd : l.Nodup) {j k : Nat} (h : l[j]? = some k) :
    remapIndex l k = j := by
  unfold remapIndex
  rw [if_pos (List.mem_iff_getElem?.mpr ⟨j, h⟩), indexOf_of_getElem? hnd h]

theorem remapFace_spec (subset : List Nat) : ∀ (f : List Nat) (m : IndexMap), MapInv subset m →
    (remapFace m f).1 = f.map (remapIndex subset) ∧ MapInv subset (remapFace m f).2 := by
  intro f
  induction f with
  | nil => intro m hm; exact ⟨rfl, hm⟩
  | cons lv rest ih =>
    intro m hm
    have key : (m.subscript lv).1 = remapIndex subset lv ∧ MapInv subset (m.subscript lv).2 := by
      unfold IndexMap.subscript remapIndex
      cases hl : m.lookup lv with
      | some v =>
        show v = _ ∧ MapInv subset m
        refine ⟨?_, hm⟩
        by_cases hmem : lv ∈ subset
        · rw [if_pos hmem]
          have := (hm lv).1 hmem
          rw [hl] at this
          exact Option.some.inj this
        · rw [if_neg hmem]
          rcases (hm lv).2 hmem with h | h
          · rw [hl] at h; simp at h
          · rw [hl] at h; exact Option.some.inj h
      | none =>
        show 0 = _ ∧ MapInv subset ((lv, 0) :: m)
        have hmem : lv ∉ subset := by
          intro hmem
          have := (hm lv).1 hmem
          rw [hl] at this
          simp at this
        refine ⟨by rw [if_neg hmem], fun k => ?_⟩
        rw [lookup_cons_eq]
        by_cases hk : k = lv
        · subst hk
          simp [hmem]
        · rw [if_neg hk]
          exact hm k
    obtain ⟨h1, h2⟩ := ih (m.subscript lv).2 key.2
    constructor
    · show (m.subscript lv).1 :: (remapFace (m.subscript lv).2 rest).1 = _
      rw [key.1, h1]
      rfl
    · exact h2

theorem sliceFace_spec (subset : List Nat) (f : List Nat) : ∀ (vs : List Nat)
    (faces : List (List Nat)) (m : IndexMap), MapInv subset m →
    MapInv subset (sliceFace f vs (faces, m)).2 ∧
      ((sliceFace f vs (faces, m)).1 = faces ∨
        (sliceFace f vs (faces, m)).1 = faces ++ [f.map (remapIndex subset)]) ∧
      ((∃ v ∈ vs, v ∈ subset) →
        (sliceFace f vs (faces, m)).1 = faces ++ [f.map (remapIndex subset)]) := by
  intro vs
  induction vs with
  | nil =>
    intro faces m hm
    exact ⟨hm, Or.inl rfl, by simp⟩
  | cons v rest ih =>
    intro faces m hm
    unfold sliceFace
    by_cases hc : m.count v > 0
    · rw [if_pos hc]
      obtain ⟨h1, h2⟩ := remapFace_spec subset f m hm
      refine ⟨h2, Or.inr ?_, fun _ => ?_⟩ <;> simp only [h1]
    · rw [if_neg hc]
      obtain ⟨i1, i2, i3⟩ := ih faces m hm
      refine ⟨i1, i2, ?_⟩
      rintro ⟨w, hw, hws⟩
      rcases List.mem_cons.mp hw with rfl | hw1
      · exfalso
        apply hc
        unfold IndexMap.count
        rw [(hm w).1 hws]
        exact Nat.one_pos
      · exact i3 ⟨w, hw1, hws⟩

theorem sliceFaces_spec (subset : List Nat) : ∀ (fs : List (List Nat)) (faces : List (List Nat))
    (m : IndexMap), MapInv subset m →
    ∃ kept : List (List Nat), kept.Sublist fs ∧
      (sliceFaces fs (faces, m)).1 = faces ++ kept.map (fun f => f.map (remapIndex subset)) ∧
      ∀ f ∈ fs, (∃ v ∈ f, v ∈ subset) → f ∈ kept := by
  intro fs
  induction fs with
  | nil =>
    intro faces m _
    exact ⟨[], List.Sublist.refl _, by simp [sliceFaces], by simp⟩
  | cons f rest ih =>
    intro faces m hm
    obtain ⟨h1, h2, h3⟩ := sliceFace_spec subset f f faces m hm
    have hst : sliceFace f f (faces, m)
        = ((sliceFace f f (faces, m)).1, (sliceFace f f (faces, m)).2) := rfl
    rcases h2 with h2 | h2
    · obtain ⟨kept, hk1, hk2, hk3⟩ := ih faces (sliceFace f f (faces, m)).2 h1
      refine ⟨kept, hk1.cons f, ?_, ?_⟩
      · show (sliceFaces rest (sliceFace f f (faces, m))).1 = _
        rw [hst, h2]
        exact hk2
      · intro g hg htouch
        rcases List.mem_cons.mp hg with rfl | hg1
        · exfalso
          have := h3 htouch
          rw [h2] at this
          simpa using congrArg List.length this
        · exact hk3 g hg1 htouch
    · obtain ⟨kept, hk1, hk2, hk3⟩ :=
        ih (faces ++ [f.map (remapIndex subset)]) (sliceFace f f (faces, m)).2 h1
      refine ⟨f :: kept, hk1.cons₂ f, ?_, ?_⟩
      · show (sliceFaces rest (sliceFace f f (faces, m))).1 = _
        rw [hst, h2, hk2]
        simp
      · intro g hg htouch
        rcases List.mem_cons.mp hg with rfl | hg1
        · exact List.mem_cons_self _ _
        · exact List.mem_cons_of_mem _ (hk3 g hg1 htouch)

/-- Specification of `slice` for distinct indices that are valid in `vertices` and `normals`. -/
theorem slice_spec (obj : OBJ) (subset : List Nat) (hnd : subset.Nodup)
    (hval : ∀ i ∈ subset, i < obj.vertices.length ∧ i < obj.normals.length) :
    ∃ (ps ns : List Vector3) (kept : List (List Nat)),
      slice obj subset
        = some ⟨ps, ns, kept.map (fun f => f.map (remapIndex subset))⟩ ∧
      List.Forall₂ (fun i p => obj.vertices[i]? = some p) subset ps ∧
      List.Forall₂ (fun i n => obj.normals[i]? = some n) subset ns ∧
      kept.Sublist obj.faces ∧ ∀ f ∈ obj.faces, (∃ v ∈ f, v ∈ subset) → f ∈ kept := by
  obtain ⟨ps, ns, m1, hrun, hps, hns, hout, hin⟩ :=
    sliceVertices_spec obj subset 0 ⟨[], [], []⟩ [] hval
  have hm : MapInv subset m1 := by
    intro k
    constructor
    · intro hk
      obtain ⟨j, hj⟩ := List.mem_iff_getElem?.mp hk
      rw [hin hnd j k hj, indexOf_of_getElem? hnd hj, Nat.zero_add]
    · intro hk
      left
      rw [hout k hk]
      rfl
  obtain ⟨kept, hk1, hk2, hk3⟩ := sliceFaces_spec subset obj.faces [] m1 hm
  refine ⟨ps, ns, kept, ?_, hps, hns, hk1, hk3⟩
  unfold slice
  rw [hrun]
  simp only [Option.map_some', List.nil_append, hk2]

theorem foldl_emplace_back {α β : Type} (g : β → α) : ∀ (l : List β) (init : List α),
    l.foldl (fun acc v => acc ++ [g v]) init = init ++ l.map g := by
  intro l
  induction l with
  | nil => intro init; simp
  | cons a rest ih => intro init; simp [ih]

/-- Closed form of `fuse`. -/
theorem fuse_eq (obj1 obj2 : OBJ) :
    fuse obj1 obj2 =
      ⟨obj1.vertices ++ obj2.vertices, obj1.normals ++ obj2.normals,
        obj1.faces ++
          obj2.faces.map (fun f => f.map (fun lv => (obj1.numVertices + lv) % uintModulus))⟩ := by
  unfold fuse
  have h1 := foldl_emplace_back (fun v : Vector3 => v) obj2.vertices obj1.vertices
  have h2 := foldl_emplace_back (fun v : Vector3 => v) obj2.normals obj1.normals
  have h3 := foldl_emplace_back
    (fun f : List Nat => f.map (fun lv => (obj1.numVertices + lv) % uintModulus))
    obj2.faces obj1.faces
  simp only [List.map_id'] at h1 h2
  rw [h1, h2, h3]

theorem foldlM_vertices (V : List Vector3) : ∀ (cs : List Nat) (ps : List Vector3) (a : Vector3),
    List.Forall₂ (fun c p => V[c]? = some p) cs ps →
    cs.foldlM (fun ret c => (V[c]?).map (fun p => ret.add p)) a
      = some (ps.foldl Vector3.add a) := by
  intro cs ps a h
  induction h generalizing a with
  | nil => rfl
  | cons h1 _ ih =>
    rw [List.foldlM_cons, h1]
    simp only [Option.map_some', Option.some_bind, List.foldl_cons]
    exact ih _

theorem exists_forall₂_getElem? {α : Type} (V : List α) : ∀ (cs : List Nat),
    (∀ c ∈ cs, c < V.length) → ∃ ps, List.Forall₂ (fun c p => V[c]? = some p) cs ps := by
  intro cs
  induction cs with
  | nil => intro _; exact ⟨[], List.Forall₂.nil⟩
  | cons c rest ih =>
    intro h
    obtain ⟨ps, hps⟩ := ih (fun x hx => h x (List.mem_cons_of_mem _ hx))
    exact ⟨_ :: ps,
      List.Forall₂.cons (List.getElem?_eq_getElem (h c (List.mem_cons_self _ _))) hps⟩

theorem centroid_eq (ret : Vector3) (obj : OBJ) (cs : List Nat) (ps : List Vector3)
    (h : List.Forall₂ (fun c p => obj.vertices[c]? = some p) cs ps) :
    centroid ret obj cs = some ((ps.foldl Vector3.add ret).divScalar ps.length) := by
  unfold centroid
  rw [foldlM_vertices obj.vertices cs ps ret h, h.length_eq]
  rfl

theorem coeff_some (a : Vector3) {d : Nat} (hd : d < 3) : ∃ k, a.coeff d = some k := by
  unfold Vector3.coeff
  interval_cases d <;> exact ⟨_, rfl⟩

theorem sortKey_some (ret : Vector3) (obj : OBJ) {d : Nat} (hd : d < 3) (cs : List Nat)
    (h : ∀ c ∈ cs, c < obj.vertices.length) : ∃ k, sortKey ret obj d cs = some k := by
  obtain ⟨ps, hps⟩ := exists_forall₂_getElem? obj.vertices cs h
  unfold sortKey
  rw [centroid_eq ret obj cs ps hps]
  exact coeff_some _ hd

theorem sliceEach_spec (obj : OBJ) (P : List Nat → OBJ → Prop) : ∀ (cs : List (List Nat)),
    (∀ c ∈ cs, ∃ M, slice obj c = some M ∧ P c M) →
    ∃ ms, sliceEach obj cs = some ms ∧ List.Forall₂ P cs ms := by
  intro cs
  induction cs with
  | nil => intro _; exact ⟨[], rfl, List.Forall₂.nil⟩
  | cons c rest ih =>
    intro h
    obtain ⟨M, hM, hP⟩ := h c (List.mem_cons_self _ _)
    obtain ⟨ms, h1, h2⟩ := ih (fun x hx => h x (List.mem_cons_of_mem _ hx))
    refine ⟨M :: ms, ?_, List.Forall₂.cons hP h2⟩
    unfold sliceEach
    rw [hM, h1]

theorem forall₂_mem_right {α β : Type} {R : α → β → Prop} :
    ∀ {l1 : List α} {l2 : List β}, List.Forall₂ R l1 l2 → ∀ y ∈ l2, ∃ b ∈ l1, R b y := by
  intro l1 l2 h
  induction h with
  | nil => intro y hy; simp at hy
  | cons h1 _ ih =>
    intro y hy
    rcases List.mem_cons.mp hy with rfl | hy1
    · exact ⟨_, List.mem_cons_self _ _, h1⟩
    · obtain ⟨b, hb, hRb⟩ := ih y hy1
      exact ⟨b, List.mem_cons_of_mem _ hb, hRb⟩

theorem components_mem {obj : OBJ} {ccs : List (List Nat)} (hc : Graph.Components obj ccs)
    {c : List Nat} (hmem : c ∈ ccs) : c.Nodup ∧ ∀ u ∈ c, u < obj.numVertices :=
  ⟨(List.nodup_flatten.mp hc.nodup).1 c hmem,
    fun u hu => (hc.cover u).mp (List.mem_flatten.mpr ⟨c, hmem, hu⟩)⟩

/-- The components exist and have the properties of `Components`. -/
theorem graphComponents_spec (obj : OBJ) (hv : ValidFaces obj) :
    ∃ ccs, graphComponents obj = some ccs ∧ Graph.Components obj ccs := by
  obtain ⟨g, ccs, hg, hrun, hc⟩ := Graph.getConnectedComponents_spec obj hv
  exact ⟨ccs, by unfold graphComponents; rw [hg]; exact hrun, hc⟩

theorem faceEdge_rtg_symm (obj : OBJ) (c : List Nat) {u w : Nat}
    (h : Relation.ReflTransGen (fun a b => a ∈ c ∧ b ∈ c ∧ FaceEdge obj a b) u w) :
    Relation.ReflTransGen (fun a b => a ∈ c ∧ b ∈ c ∧ FaceEdge obj a b) w u :=
  Relation.ReflTransGen.symmetric
    (fun _ _ hab => ⟨hab.2.1, hab.1, Graph.faceEdge_symm hab.2.2⟩) h

theorem closed_rtg {obj : OBJ} {c : List Nat}
    (hcl : ∀ u ∈ c, ∀ w, FaceEdge obj u w → w ∈ c) {u w : Nat} (hu : u ∈ c)
    (h : Relation.ReflTransGen (FaceEdge obj) u w) : w ∈ c := by
  induction h with
  | refl => exact hu
  | tail _ hstep ih => exact hcl _ ih _ hstep

theorem face_connected (obj : OBJ) (f : List Nat) (hf : f ∈ obj.faces) :
    ∀ (i : Nat) (x x0 : Nat), f[0]? = some x0 → f[i]? = some x →
      Relation.ReflTransGen (FaceEdge obj) x0 x := by
  intro i
  induction i with
  | zero =>
    intro x x0 h0 hx
    rw [h0] at hx
    simp only [Option.some.injEq] at hx
    subst hx
    exact Relation.ReflTransGen.refl
  | succ i ih =>
    intro x x0 h0 hx
    have hlt : i < f.length := by
      by_contra hc
      rw [List.getElem?_eq_none (by omega)] at hx
      simp at hx
    have hy := List.getElem?_eq_getElem hlt
    exact Relation.ReflTransGen.tail (ih _ x0 h0 hy) ⟨f, hf, Or.inl ⟨i, hy, hx⟩⟩

theorem face_connected_mem (obj : OBJ) (f : List Nat) (hf : f ∈ obj.faces) {a b : Nat}
    (ha : a ∈ f) (hb : b ∈ f) : Relation.ReflTransGen (FaceEdge obj) a b := by
  obtain ⟨i, hi⟩ := List.mem_iff_getElem?.mp ha
  obtain ⟨j, hj⟩ := List.mem_iff_getElem?.mp hb
  have hpos : 0 < f.length := List.length_pos_of_mem ha
  have h0 := List.getElem?_eq_getElem hpos
  have h1 := face_connected obj f hf i a _ h0 hi
  have h2 := face_connected obj f hf j b _ h0 hj
  exact (Relation.ReflTransGen.symmetric (fun _ _ h => Graph.faceEdge_symm h) h1).trans h2

theorem forall₂_getElem? {α β : Type} {R : α → β → Prop} :
    ∀ {l1 : List α} {l2 : List β}, List.Forall₂ R l1 l2 →
      ∀ (i : Nat) (a : α), l1[i]? = some a → ∃ b, l2[i]? = some b ∧ R a b := by
  intro l1 l2 h
  induction h with
  | nil => intro i a ha; simp at ha
  | cons h1 _ ih =>
    intro i a ha
    cases i with
    | zero =>
      simp only [List.getElem?_cons_zero, Option.some.injEq] at ha
      subst ha
      exact ⟨_, List.getElem?_cons_zero, h1⟩
    | succ i =>
      simp only [List.getElem?_cons_succ] at ha
      simpa using ih i a ha

/-- C1 (partition). For a mesh whose face indices are all below `numVertices`, the components
computed by `Graph(obj).getConnectedComponents()` exist, and listed one after the other they
are a rearrangement of `0, ..., numVertices - 1`: every vertex index occurs exactly once. -/
theorem components_partition (obj : OBJ) (hv : ValidFaces obj) :
    ∃ ccs, graphComponents obj = some ccs ∧
      ccs.flatten.Perm (List.range obj.numVertices) ∧
      ∀ u, u < obj.numVertices → ccs.flatten.count u = 1 := by
  obtain ⟨ccs, hrun, hc⟩ := graphComponents_spec obj hv
  refine ⟨ccs, hrun, ?_, ?_⟩
  · rw [List.perm_ext_iff_of_nodup hc.nodup (List.nodup_range _)]
    intro u
    rw [hc.cover, List.mem_range]
  · intro u hu
    exact List.count_eq_one_of_mem hc.nodup ((hc.cover u).mpr hu)

theorem components_partition_witness :
    ValidFaces twoTriangles ∧
      ∃ ccs, graphComponents twoTriangles = some ccs ∧
        ccs.flatten.Perm (List.range twoTriangles.numVertices) ∧
        ∀ u, u < twoTriangles.numVertices → ccs.flatten.count u = 1 :=
  ⟨by decide, components_partition twoTriangles (by decide)⟩

/-- C2 (internal connectivity). For a mesh with valid face indices, any two vertices of a
returned component are joined by a path of face-induced edges whose vertices all lie in that
component. -/
theorem components_connected (obj : OBJ) (hv : ValidFaces obj) :
    ∃ ccs, graphComponents obj = some ccs ∧
      ∀ c ∈ ccs, ∀ u ∈ c, ∀ w ∈ c,
        Relation.ReflTransGen (fun a b => a ∈ c ∧ b ∈ c ∧ FaceEdge obj a b) u w := by
  obtain ⟨ccs, hrun, hc⟩ := graphComponents_spec obj hv
  refine ⟨ccs, hrun, ?_⟩
  intro c hcm u hu w hw
  obtain ⟨heads, _, hheads⟩ := hc.heads
  obtain ⟨h, _, t, _, _, hreach⟩ := forall₂_mem_right hheads c hcm
  exact (faceEdge_rtg_symm obj c (hreach u hu)).trans (hreach w hw)

theorem components_connected_witness :
    ValidFaces twoTriangles ∧
      ∃ ccs, graphComponents twoTriangles = some ccs ∧
        ∀ c ∈ ccs, ∀ u ∈ c, ∀ w ∈ c,
          Relation.ReflTransGen (fun a b => a ∈ c ∧ b ∈ c ∧ FaceEdge twoTriangles a b) u w :=
  ⟨by decide, components_connected twoTriangles (by decide)⟩

/-- C3 (maximality). For a mesh with valid face indices: a face-induced edge never joins two
different returned components; a face with one vertex in a component has all its vertices in
it; and whatever is reachable from a component by face-induced edges belongs to it. -/
theorem components_maximal (obj : OBJ) (hv : ValidFaces obj) :
    ∃ ccs, graphComponents obj = some ccs ∧
      (∀ c ∈ ccs, ∀ d ∈ ccs, ∀ u ∈ c, ∀ w ∈ d, FaceEdge obj u w → c = d) ∧
      (∀ c ∈ ccs, ∀ f ∈ obj.faces, (∃ v ∈ f, v ∈ c) → ∀ v ∈ f, v ∈ c) ∧
      (∀ c ∈ ccs, ∀ u ∈ c, ∀ w, Relation.ReflTransGen (FaceEdge obj) u w → w ∈ c) := by
  obtain ⟨ccs, hrun, hc⟩ := graphComponents_spec obj hv
  refine ⟨ccs, hrun, ?_, ?_, ?_⟩
  · intro c hcm d hdm u hu w hw hfe
    by_contra hne
    have hdisj := (List.nodup_flatten.mp hc.nodup).2.forall (fun _ _ h => h.symm) hcm hdm hne
    exact hdisj (hc.closed c hcm u hu w hfe) hw
  · rintro c hcm f hf ⟨v0, hv0, hv0c⟩ v hvf
    exact closed_rtg (hc.closed c hcm) hv0c (face_connected_mem obj f hf hv0 hvf)
  · intro c hcm u hu w hreach
    exact closed_rtg (hc.closed c hcm) hu hreach

theorem components_maximal_witness :
    ValidFaces twoTriangles ∧
      ∃ ccs, graphComponents twoTriangles = some ccs ∧
        (∀ c ∈ ccs, ∀ d ∈ ccs, ∀ u ∈ c, ∀ w ∈ d, FaceEdge twoTriangles u w → c = d) ∧
        (∀ c ∈ ccs, ∀ f ∈ twoTriangles.faces, (∃ v ∈ f, v ∈ c) → ∀ v ∈ f, v ∈ c) ∧
        (∀ c ∈ ccs, ∀ u ∈ c, ∀ w, Relation.ReflTransGen (FaceEdge twoTriangles) u w → w ∈ c) :=
  ⟨by decide, components_maximal twoTriangles (by decide)⟩

/-- C7 (component order before sorting). For a mesh with valid face indices, the first vertex
of every component returned by `getConnectedComponents` is the least vertex of that component,
and these first vertices are strictly ascending along the list of components. -/
theorem components_heads_ascending (obj : OBJ) (hv : ValidFaces obj) :
    ∃ (ccs : List (List Nat)) (heads : List Nat), graphComponents obj = some ccs ∧
      heads.Pairwise (fun a b => a < b) ∧
      List.Forall₂ (fun h c => c.head? = some h ∧ ∀ u ∈ c, h ≤ u) heads ccs := by
  obtain ⟨ccs, hrun, hc⟩ := graphComponents_spec obj hv
  obtain ⟨heads, hsorted, hheads⟩ := hc.heads
  refine ⟨ccs, heads, hrun, hsorted, hheads.imp ?_⟩
  rintro h c ⟨t, rfl, hmin, _⟩
  exact ⟨rfl, hmin⟩

theorem components_heads_ascending_witness :
    ValidFaces twoTriangles ∧
      ∃ (ccs : List (List Nat)) (heads : List Nat), graphComponents twoTriangles = some ccs ∧
        heads.Pairwise (fun a b => a < b) ∧
        List.Forall₂ (fun h c => c.head? = some h ∧ ∀ u ∈ c, h ≤ u) heads ccs :=
  ⟨by decide, components_heads_ascending twoTriangles (by decide)⟩

/-- C9 (adjacency graph construction). For a mesh with valid face indices the constructor
returns a graph in which `b` occurs in the adjacency list of `a` exactly when some face holds
`a` and `b` at consecutive positions, in either order; the relation is symmetric. The last and
the first vertex of a face are thus adjacent only if they are consecutive somewhere. -/
theorem adjacency_iff_consecutive (obj : OBJ) (hv : ValidFaces obj) :
    ∃ g, Graph.ofOBJ obj = some g ∧
      (∀ a b, Adj g.adjLists_ a b ↔ ∃ f ∈ obj.faces, Consecutive f a b ∨ Consecutive f b a) ∧
      (∀ a b, Adj g.adjLists_ a b → Adj g.adjLists_ b a) := by
  obtain ⟨g, hg, _, _, _, _, hadj⟩ := Graph.ofOBJ_spec obj hv
  refine ⟨g, hg, hadj, ?_⟩
  intro a b hab
  exact (hadj b a).mpr (Graph.faceEdge_symm ((hadj a b).mp hab))

theorem adjacency_iff_consecutive_witness :
    (ValidFaces triangle ∧
      ∃ g, Graph.ofOBJ triangle = some g ∧
        (∀ a b, Adj g.adjLists_ a b ↔
          ∃ f ∈ triangle.faces, Consecutive f a b ∨ Consecutive f b a) ∧
        (∀ a b, Adj g.adjLists_ a b → Adj g.adjLists_ b a)) ∧
      (Graph.ofOBJ triangle).map (fun g => g.adjLists_) = some [[1], [0, 2], [1]] :=
  ⟨⟨by decide, adjacency_iff_consecutive triangle (by decide)⟩, by decide⟩

/-- C4 (slice inclusion policy), evaluated where the code departs from it: slicing the faces
`[0, 1]`, `[1, 2]` by the subset `[0]` returns two faces, although no vertex of `[1, 2]` is in
the subset. Reading `old2newVertex[1]` while the first face is remapped inserts the key `1`,
and the test `count(1) > 0` then accepts the second face. -/
theorem slice_keeps_untouched_face :
    (slice chainMesh [0]).map (fun r => r.faces) = some [[0, 0], [0, 0]] ∧
      chainMesh.faces = [[0, 1], [1, 2]] ∧ (∀ v ∈ [1, 2], v ∉ [0]) ∧
      (slice triangle [0]).map (fun r => r.faces) = some [[0, 0, 0]] := by
  decide

/-- C5 (slice renumbering). For distinct indices valid in `vertices` and `normals`, `slice`
returns a mesh with `|subset|` vertices and normals, entry `i` being the source entry at
`subset[i]`; its faces come, in order, from source faces `kept`, each with its length kept and
every index equal to `subset[i]` replaced by `i` at the same position. -/
theorem slice_renumbering (obj : OBJ) (subset : List Nat) (hnd : subset.Nodup)
    (hval : ValidSubset obj subset) :
    ∃ r, slice obj subset = some r ∧
      r.numVertices = subset.length ∧ r.numNormals = subset.length ∧
      (∀ i k : Nat, subset[i]? = some k →
        (∃ p, r.vertices[i]? = some p ∧ obj.vertices[k]? = some p) ∧
        ∃ n, r.normals[i]? = some n ∧ obj.normals[k]? = some n) ∧
      ∃ kept : List (List Nat), kept.Sublist obj.faces ∧
        List.Forall₂ (fun (f g : List Nat) => g.length = f.length ∧
          ∀ p i k : Nat, subset[i]? = some k → f[p]? = some k → g[p]? = some i) kept r.faces := by
  obtain ⟨ps, ns, kept, hrun, hps, hns, hsub, _⟩ := slice_spec obj subset hnd hval
  refine ⟨_, hrun, hps.length_eq.symm, hns.length_eq.symm, ?_, kept, hsub, ?_⟩
  · intro i k hik
    obtain ⟨p, hp1, hp2⟩ := forall₂_getElem? hps i k hik
    obtain ⟨n, hn1, hn2⟩ := forall₂_getElem? hns i k hik
    exact ⟨⟨p, hp1, hp2⟩, ⟨n, hn1, hn2⟩⟩
  · show List.Forall₂ _ kept (kept.map _)
    rw [List.forall₂_map_right_iff]
    refine List.forall₂_same.mpr (fun f _ => ⟨List.length_map _ _, ?_⟩)
    intro p i k hik hfp
    rw [List.getElem?_map, hfp]
    simp only [Option.map_some']
    rw [remapIndex_getElem? hnd hik]

theorem slice_renumbering_witness :
    [2, 0].Nodup ∧ ValidSubset triangle [2, 0] ∧
      ∃ r, slice triangle [2, 0] = some r ∧
        r.numVertices = [2, 0].length ∧ r.numNormals = [2, 0].length ∧
        (∀ i k : Nat, [2, 0][i]? = some k →
          (∃ p, r.vertices[i]? = some p ∧ triangle.vertices[k]? = some p) ∧
          ∃ n, r.normals[i]? = some n ∧ triangle.normals[k]? = some n) ∧
        ∃ kept : List (List Nat), kept.Sublist triangle.faces ∧
          List.Forall₂ (fun (f g : List Nat) => g.length = f.length ∧
            ∀ p i k : Nat, [2, 0][i]? = some k → f[p]? = some k → g[p]? = some i) kept r.faces :=
  ⟨by decide, by decide, slice_renumbering triangle [2, 0] (by decide) (by decide)⟩

/-- C6 as stated fails: fusing a one-vertex mesh with a mesh whose face holds the index
`4294967295` yields the index `0`, not the index increased by one. -/
theorem fuse_index_wraps :
    (fuse oneVertex bigIndexMesh).faces = [[0]] ∧
      (fuse oneVertex bigIndexMesh).faces ≠
        oneVertex.faces ++
          bigIndexMesh.faces.map (fun f => f.map (fun lv => lv + oneVertex.numVertices)) := by
  decide

/-- C6 (fuse), amended. `fuse` concatenates vertices and normals, keeps the faces of the first
mesh and appends the faces of the second with every index `lv` replaced by
`(numVertices(first) + lv) mod 2^32`; vertex and face counts add. When no shifted index
reaches `2^32`, every index of the second mesh is increased by `numVertices(first)`. -/
theorem fuse_concatenates (obj1 obj2 : OBJ) :
    (fuse obj1 obj2).vertices = obj1.vertices ++ obj2.vertices ∧
      (fuse obj1 obj2).normals = obj1.normals ++ obj2.normals ∧
      (fuse obj1 obj2).faces = obj1.faces ++
        obj2.faces.map (fun f => f.map (fun lv => (obj1.numVertices + lv) % uintModulus)) ∧
      (fuse obj1 obj2).numVertices = obj1.numVertices + obj2.numVertices ∧
      (fuse obj1 obj2).numFaces = obj1.numFaces + obj2.numFaces ∧
      (NoWrap obj1 obj2 →
        (fuse obj1 obj2).faces = obj1.faces ++
          obj2.faces.map (fun f => f.map (fun lv => lv + obj1.numVertices))) := by
  rw [fuse_eq]
  refine ⟨rfl, rfl, rfl, ?_, ?_, ?_⟩
  · simp [numVertices]
  · simp [numFaces]
  · intro hnw
    show obj1.faces ++ _ = obj1.faces ++ _
    congr 1
    refine List.map_congr_left (fun f hf => List.map_congr_left (fun lv hlv => ?_))
    rw [Nat.mod_eq_of_lt (hnw f hf lv hlv), Nat.add_comm]

theorem fuse_concatenates_witness :
    NoWrap triangle twoTriangles ∧
      (fuse triangle twoTriangles).faces = triangle.faces ++
        twoTriangles.faces.map (fun f => f.map (fun lv => lv + triangle.numVertices)) :=
  ⟨by decide, (fuse_concatenates triangle twoTriangles).2.2.2.2.2 (by decide)⟩

theorem rtg_false_eq {r : Nat → Nat → Prop} (hr : ∀ a b, ¬ r a b) {x y : Nat}
    (h : Relation.ReflTransGen r x y) : y = x := by
  induction h with
  | refl => rfl
  | tail _ hstep _ => exact absurd hstep (hr _ _)

theorem singletons_of_forall₂ {heads : List Nat} {ccs : List (List Nat)}
    (h : List.Forall₂ (fun h c => c = [h]) heads ccs) : ccs = heads.map (fun k => [k]) := by
  induction h with
  | nil => rfl
  | cons h1 _ ih => rw [h1, ih]; rfl

/-- Without faces the components are the singletons `[0], [1], ...` in this order. -/
theorem graphComponents_no_faces (obj : OBJ) (hf : obj.faces = []) :
    graphComponents obj = some ((List.range obj.numVertices).map (fun k => [k])) := by
  have hv : ValidFaces obj := by
    intro f hfm
    rw [hf] at hfm
    simp at hfm
  obtain ⟨ccs, hrun, hc⟩ := graphComponents_spec obj hv
  obtain ⟨heads, hsorted, hheads⟩ := hc.heads
  have hno : ∀ c : List Nat, ∀ a b, ¬ (a ∈ c ∧ b ∈ c ∧ FaceEdge obj a b) := by
    rintro c a b ⟨_, _, f, hfm, _⟩
    rw [hf] at hfm
    simp at hfm
  have hsing : List.Forall₂ (fun h c => c = [h]) heads ccs := by
    refine List.Forall₂.flip ?_
    refine (List.forall₂_iff_zip.mpr ⟨hheads.length_eq.symm, fun {c h} hz => ?_⟩)
    have hcm : c ∈ ccs := (List.of_mem_zip hz).1
    obtain ⟨t, ht, _, hreach⟩ := (List.forall₂_iff_zip.mp hheads.flip).2 hz
    have hnd := (components_mem hc hcm).1
    subst ht
    cases t with
    | nil => rfl
    | cons x t1 =>
      exfalso
      have hx : x = h := rtg_false_eq (hno _) (hreach x (by simp))
      subst hx
      simp at hnd
  have hccs := singletons_of_forall₂ hsing
  have hflat : ccs.flatten = heads := by
    rw [hccs]
    clear hsing hheads hsorted hccs
    induction heads with
    | nil => rfl
    | cons a t ih => simpa using ih
  have hperm : heads.Perm (List.range obj.numVertices) := by
    rw [← hflat, List.perm_ext_iff_of_nodup hc.nodup (List.nodup_range _)]
    intro u
    rw [hc.cover, List.mem_range]
  have heq : heads = List.range obj.numVertices :=
    List.eq_of_perm_of_sorted hperm hsorted (List.sorted_lt_range _)
  rw [hrun, hccs, heq]

end OBJ

namespace OBJ

theorem foldl_add_eq (ps : List Vector3) : ∀ a : Vector3,
    ps.foldl Vector3.add a =
      ⟨a.x + (ps.map (fun p => p.x)).sum, a.y + (ps.map (fun p => p.y)).sum,
        a.z + (ps.map (fun p => p.z)).sum⟩ := by
  induction ps with
  | nil => intro a; simp
  | cons p rest ih =>
    intro a
    rw [List.foldl_cons, ih]
    simp [Vector3.add, add_assoc]

theorem forall₂_vertexAt (obj : OBJ) : ∀ (cs : List Nat), (∀ c ∈ cs, c < obj.numVertices) →
    List.Forall₂ (fun c p => obj.vertices[c]? = some p) cs (cs.map (vertexAt obj)) := by
  intro cs
  induction cs with
  | nil => intro _; exact List.Forall₂.nil
  | cons c rest ih =>
    intro h
    refine List.Forall₂.cons ?_ (ih (fun x hx => h x (List.mem_cons_of_mem _ hx)))
    have hc : c < obj.vertices.length := h c (List.mem_cons_self _ _)
    unfold vertexAt
    rw [List.getD_eq_getElem?_getD, List.getElem?_eq_getElem hc]
    rfl

/-- C19 (fuse is associative). For all meshes, `fuse(fuse(A, B), C)` and `fuse(A, fuse(B, C))`
are the same value: the same vertices, normals and faces, the index shifts being taken modulo
`2^32`. -/
theorem fuse_assoc (A B C : OBJ) : fuse (fuse A B) C = fuse A (fuse B C) := by
  simp only [fuse_eq, numVertices, List.append_assoc, List.map_append, List.map_map,
    List.length_append]
  congr 3
  refine List.map_congr_left (fun f _ => ?_)
  simp only [Function.comp_apply, List.map_map]
  refine List.map_congr_left (fun lv _ => ?_)
  simp only [Function.comp_apply]
  rw [Nat.add_mod A.vertices.length ((B.vertices.length + lv) % uintModulus), Nat.mod_mod,
    ← Nat.add_mod, Nat.add_assoc]

/-- C18 (components are never empty). For a mesh with valid face indices every component
returned by `getConnectedComponents` has at least one vertex, so the sort of
`connectedComponents` only ever takes the centroid of a non-empty component. -/
theorem components_nonempty (obj : OBJ) (hv : ValidFaces obj) :
    ∃ ccs, graphComponents obj = some ccs ∧ ∀ c ∈ ccs, c ≠ [] ∧ 0 < c.length := by
  obtain ⟨ccs, hrun, hc⟩ := graphComponents_spec obj hv
  refine ⟨ccs, hrun, ?_⟩
  intro c hcm
  obtain ⟨heads, _, hheads⟩ := hc.heads
  obtain ⟨h, _, t, ht, _, _⟩ := forall₂_mem_right hheads c hcm
  subst ht
  exact ⟨List.cons_ne_nil _ _, Nat.succ_pos _⟩

theorem sliceFace_empty_map (f : List Nat) : ∀ (vs : List Nat) (faces : List (List Nat)),
    sliceFace f vs (faces, []) = (faces, []) := by
  intro vs
  induction vs with
  | nil => intro faces; rfl
  | cons v rest ih =>
    intro faces
    unfold sliceFace
    rw [if_neg (by simp [IndexMap.count])]
    exact ih faces

theorem sliceFaces_empty_map : ∀ (fs : List (List Nat)) (faces : List (List Nat)),
    sliceFaces fs (faces, []) = (faces, []) := by
  intro fs
  induction fs with
  | nil => intro faces; rfl
  | cons f rest ih =>
    intro faces
    unfold sliceFaces
    rw [sliceFace_empty_map]
    exact ih faces

/-- Slicing by the empty subset gives the empty mesh. -/
theorem slice_nil (obj : OBJ) : slice obj [] = some ⟨[], [], []⟩ := by
  unfold slice
  simp only [sliceVertices, Option.map_some', sliceFaces_empty_map]

theorem sliceVertices_valid (obj : OBJ) : ∀ (rest : List Nat) (v : Nat) (st r : OBJ × IndexMap),
    sliceVertices obj rest v st = some r →
    ∀ i ∈ rest, i < obj.vertices.length ∧ i < obj.normals.length := by
  intro rest
  induction rest with
  | nil => intro _ _ _ _ i hi; simp at hi
  | cons idx rest ih =>
    intro v st r h i hi
    obtain ⟨ret, m⟩ := st
    unfold sliceVertices at h
    cases h1 : obj.vertices[idx]? with
    | none => rw [h1] at h; simp at h
    | some p =>
      cases h2 : obj.normals[idx]? with
      | none => rw [h1, h2] at h; simp at h
      | some n =>
        rw [h1, h2] at h
        simp only at h
        rcases List.mem_cons.mp hi with rfl | hi1
        · constructor
          · by_contra hc
            rw [List.getElem?_eq_none (not_lt.mp hc)] at h1
            simp at h1
          · by_contra hc
            rw [List.getElem?_eq_none (not_lt.mp hc)] at h2
            simp at h2
        · exact ih _ _ _ h i hi1

/-- C11 (tolerance of missing normals), amended. `slice` returns a mesh, without any
out-of-range access, exactly when every index of the subset is valid in `vertices` and in
`normals`: the two sequences may differ in length, but a selected index must have a normal. -/
theorem slice_returns_iff (obj : OBJ) (subset : List Nat) :
    (∃ r, slice obj subset = some r) ↔ ValidSubset obj subset := by
  constructor
  · rintro ⟨r, hr⟩
    unfold slice at hr
    cases h : sliceVertices obj subset 0 (⟨[], [], []⟩, []) with
    | none => rw [h] at hr; simp at hr
    | some st => exact sliceVertices_valid obj subset 0 _ st h
  · intro hval
    obtain ⟨ps, ns, m1, hrun, _⟩ := sliceVertices_spec obj subset 0 ⟨[], [], []⟩ [] hval
    unfold slice
    rw [hrun]
    exact ⟨_, rfl⟩

theorem slice_returns_iff_witness :
    ValidSubset twoTriangles [5, 1] ∧ ∃ r, slice twoTriangles [5, 1] = some r :=
  ⟨by decide, (slice_returns_iff twoTriangles [5, 1]).mpr (by decide)⟩

/-- C16 (slice yields index-valid faces). For distinct indices valid in `vertices` and
`normals`, every index in every face of the slice is below the number of vertices of the
slice; the result faces come from source faces `kept`, in which an index that is not in the
subset is replaced by `0`; and the empty subset gives no face. -/
theorem slice_faces_index_valid (obj : OBJ) (subset : List Nat) (hnd : subset.Nodup)
    (hval : ValidSubset obj subset) :
    ∃ r, slice obj subset = some r ∧
      (∀ g ∈ r.faces, ∀ i ∈ g, i < r.numVertices) ∧
      (∃ kept : List (List Nat), kept.Sublist obj.faces ∧
        List.Forall₂ (fun (f g : List Nat) => g.length = f.length ∧
          ∀ p k : Nat, f[p]? = some k → k ∉ subset → g[p]? = some 0) kept r.faces) ∧
      (subset = [] → r.faces = []) := by
  obtain ⟨ps, ns, kept, hrun, hps, _, hsub, _⟩ := slice_spec obj subset hnd hval
  refine ⟨_, hrun, ?_, ⟨kept, hsub, ?_⟩, ?_⟩
  · intro g hg i hi
    show i < ps.length
    rw [← hps.length_eq]
    obtain ⟨f, _, rfl⟩ := List.mem_map.mp hg
    obtain ⟨k, hk, rfl⟩ := List.mem_map.mp hi
    unfold remapIndex
    by_cases hmem : k ∈ subset
    · rw [if_pos hmem]
      exact List.indexOf_lt_length.mpr hmem
    · rw [if_neg hmem]
      by_contra hlen
      have hnil : subset = [] := List.length_eq_zero.mp (by omega)
      subst hnil
      rw [slice_nil] at hrun
      simp only [Option.some.injEq, OBJ.mk.injEq] at hrun
      rw [← hrun.2.2] at hg
      simp at hg
  · show List.Forall₂ _ kept (kept.map _)
    rw [List.forall₂_map_right_iff]
    refine List.forall₂_same.mpr (fun f _ => ⟨List.length_map _ _, ?_⟩)
    intro p k hfp hk
    rw [List.getElem?_map, hfp]
    simp only [Option.map_some', remapIndex, if_neg hk]
  · intro hnil
    subst hnil
    rw [slice_nil] at hrun
    simp only [Option.some.injEq, OBJ.mk.injEq] at hrun
    exact hrun.2.2.symm

theorem slice_faces_index_valid_witness :
    [0].Nodup ∧ ValidSubset chainMesh [0] ∧
      ∃ r, slice chainMesh [0] = some r ∧
        (∀ g ∈ r.faces, ∀ i ∈ g, i < r.numVertices) ∧
        (∃ kept : List (List Nat), kept.Sublist chainMesh.faces ∧
          List.Forall₂ (fun (f g : List Nat) => g.length = f.length ∧
            ∀ p k : Nat, f[p]? = some k → k ∉ [0] → g[p]? = some 0) kept r.faces) ∧
        ([0] = [] → r.faces = []) :=
  ⟨by decide, by decide, slice_faces_index_valid chainMesh [0] (by decide) (by decide)⟩

theorem remapFace_closed (subset : List Nat) (m : IndexMap) (hm : MapExact subset m) :
    ∀ (f : List Nat), (∀ v ∈ f, v ∈ subset) →
      remapFace m f = (f.map (remapIndex subset), m) := by
  intro f
  induction f with
  | nil => intro _; rfl
  | cons lv rest ih =>
    intro hf
    have hlv : lv ∈ subset := hf lv (List.mem_cons_self _ _)
    have hsub : m.subscript lv = (subset.indexOf lv, m) := by
      unfold IndexMap.subscript
      rw [hm lv, if_pos hlv]
    show ((m.subscript lv).1 :: (remapFace (m.subscript lv).2 rest).1,
      (remapFace (m.subscript lv).2 rest).2) = _
    rw [hsub]
    simp only
    rw [ih (fun v hv => hf v (List.mem_cons_of_mem _ hv))]
    simp [remapIndex, hlv]

theorem sliceFace_exact (subset : List Nat) (m : IndexMap) (hm : MapExact subset m)
    (f : List Nat) : ∀ (vs : List Nat) (faces : List (List Nat)),
    sliceFace f vs (faces, m) =
      if touches subset vs = true then (faces ++ [(remapFace m f).1], (remapFace m f).2)
      else (faces, m) := by
  intro vs
  induction vs with
  | nil => intro faces; rfl
  | cons v rest ih =>
    intro faces
    unfold sliceFace
    by_cases hv : v ∈ subset
    · have hc : m.count v > 0 := by
        unfold IndexMap.count
        rw [hm v, if_pos hv]
        exact Nat.one_pos
      rw [if_pos hc, if_pos (by simp [touches, hv])]
    · have hc : ¬ m.count v > 0 := by
        unfold IndexMap.count
        rw [hm v, if_neg hv]
        exact Nat.lt_irrefl 0
      rw [if_neg hc, ih faces]
      simp [touches, hv]

theorem sliceFaces_closed (subset : List Nat) (m : IndexMap) (hm : MapExact subset m) :
    ∀ (fs : List (List Nat)) (faces : List (List Nat)),
      (∀ f ∈ fs, touches subset f = true → ∀ v ∈ f, v ∈ subset) →
      sliceFaces fs (faces, m) =
        (faces ++ (fs.filter (touches subset)).map (fun f => f.map (remapIndex subset)), m) := by
  intro fs
  induction fs with
  | nil => intro faces _; simp [sliceFaces]
  | cons f rest ih =>
    intro faces hcl
    have hrest : ∀ g ∈ rest, touches subset g = true → ∀ v ∈ g, v ∈ subset :=
      fun g hg => hcl g (List.mem_cons_of_mem _ hg)
    unfold sliceFaces
    rw [sliceFace_exact subset m hm f f faces]
    by_cases ht : touches subset f = true
    · rw [if_pos ht, remapFace_closed subset m hm f (hcl f (List.mem_cons_self _ _) ht)]
      simp only
      rw [ih _ hrest, List.filter_cons_of_pos ht]
      simp
    · rw [if_neg ht, ih _ hrest, List.filter_cons_of_neg ht]

/-- On a subset that is closed under the faces touching it, `slice` keeps exactly the touching
faces. -/
theorem slice_closed (obj : OBJ) (subset : List Nat) (hnd : subset.Nodup)
    (hval : ValidSubset obj subset)
    (hcl : ∀ f ∈ obj.faces, touches subset f = true → ∀ v ∈ f, v ∈ subset) :
    ∃ M, slice obj subset = some M ∧ M.numVertices = subset.length ∧
      M.faces = (obj.faces.filter (touches subset)).map (fun f => f.map (remapIndex subset)) := by
  obtain ⟨ps, ns, m1, hrun, hps, _, hout, hin⟩ :=
    sliceVertices_spec obj subset 0 ⟨[], [], []⟩ [] hval
  have hm : MapExact subset m1 := by
    intro k
    by_cases hk : k ∈ subset
    · obtain ⟨j, hj⟩ := List.mem_iff_getElem?.mp hk
      rw [if_pos hk, hin hnd j k hj, indexOf_of_getElem? hnd hj, Nat.zero_add]
    · rw [if_neg hk, hout k hk]
      rfl
  refine ⟨⟨ps, ns, (sliceFaces obj.faces ([], m1)).1⟩, by unfold slice; rw [hrun]; rfl,
    hps.length_eq.symm, ?_⟩
  show (sliceFaces obj.faces ([], m1)).1 = _
  rw [sliceFaces_closed subset m1 hm obj.faces [] hcl]
  simp

theorem mapBack_remap (c : List Nat) : ∀ (f : List Nat), (∀ v ∈ f, v ∈ c) →
    mapBack c (f.map (remapIndex c)) = f := by
  intro f hf
  unfold mapBack
  rw [List.map_map]
  conv_rhs => rw [← List.map_id f]
  refine List.map_congr_left (fun v hv => ?_)
  have hmem := hf v hv
  have hlt : c.indexOf v < c.length := List.indexOf_lt_length.mpr hmem
  simp only [Function.comp_apply, remapIndex, if_pos hmem, id]
  rw [List.getD_eq_getElem c 0 hlt]
  exact List.getElem_indexOf hlt

theorem countP_eq_one {α : Type} (p : α → Bool) : ∀ (l : List α) (c : α), l.Nodup → c ∈ l →
    p c = true → (∀ x ∈ l, p x = true → x = c) → l.countP p = 1 := by
  intro l
  induction l with
  | nil => intro c _ hc; simp at hc
  | cons a t ih =>
    intro c hnd hc hpc huniq
    obtain ⟨hat, hndt⟩ := List.nodup_cons.mp hnd
    by_cases hac : a = c
    · subst hac
      rw [List.countP_cons_of_pos _ _ hpc]
      have : t.countP p = 0 := by
        rw [List.countP_eq_zero]
        intro x hx hpx
        exact hat (huniq x (List.mem_cons_of_mem _ hx) hpx ▸ hx)
      rw [this]
    · have hct : c ∈ t := by
        rcases List.mem_cons.mp hc with h | h
        · exact absurd h.symm hac
        · exact h
      have hpa : ¬ p a = true := fun h => hac (huniq a (List.mem_cons_self _ _) h)
      rw [List.countP_cons_of_neg _ _ hpa]
      exact ih c hndt hct hpc (fun x hx => huniq x (List.mem_cons_of_mem _ hx))

theorem sum_indicator_eq_countP {α : Type} (p : α → Bool) : ∀ (l : List α),
    (l.map (fun c => if p c = true then 1 else 0)).sum = l.countP p := by
  intro l
  induction l with
  | nil => rfl
  | cons a t ih =>
    by_cases hpa : p a = true
    · rw [List.countP_cons_of_pos _ _ hpa, List.map_cons, List.sum_cons, ih, if_pos hpa]
      omega
    · rw [List.countP_cons_of_neg _ _ hpa, List.map_cons, List.sum_cons, ih, if_neg hpa]
      omega

/-- Double counting: when every non-empty face touches exactly one of `comps` and an empty
face none, the touched faces of all `comps` together are the non-empty faces. -/
theorem sum_touched_faces (comps : List (List Nat)) : ∀ (faces : List (List Nat)),
    (∀ f ∈ faces, comps.countP (fun c => touches c f) = if f ≠ [] then 1 else 0) →
    (comps.map (fun c => (faces.filter (touches c)).length)).sum
      = (faces.filter (fun f => decide (f ≠ []))).length := by
  intro faces
  induction faces with
  | nil =>
    intro _
    simp
  | cons f rest ih =>
    intro h
    have hrest := ih (fun g hg => h g (List.mem_cons_of_mem _ hg))
    have hf := h f (List.mem_cons_self _ _)
    have hsplit : ∀ c : List Nat, ((f :: rest).filter (touches c)).length
        = (if touches c f = true then 1 else 0) + (rest.filter (touches c)).length := by
      intro c
      by_cases ht : touches c f = true
      · rw [List.filter_cons_of_pos ht, if_pos ht, List.length_cons]
        omega
      · rw [List.filter_cons_of_neg ht, if_neg ht]
        omega
    simp only [hsplit]
    rw [List.sum_map_add, hrest, sum_indicator_eq_countP (fun c => touches c f) comps, hf]
    by_cases hne : f ≠ []
    · rw [if_pos hne, List.filter_cons_of_pos (by simpa using hne), List.length_cons]
      omega
    · rw [if_neg hne, List.filter_cons_of_neg (by simpa using hne)]
      omega

theorem components_face_closed {obj : OBJ} {ccs : List (List Nat)}
    (hc : Graph.Components obj ccs) {c : List Nat} (hcm : c ∈ ccs) :
    ∀ f ∈ obj.faces, touches c f = true → ∀ v ∈ f, v ∈ c := by
  intro f hf ht v hv
  obtain ⟨v0, hv0, hv0c⟩ := List.any_eq_true.mp ht
  exact closed_rtg (hc.closed c hcm) (of_decide_eq_true hv0c) (face_connected_mem obj f hf hv0 hv)

theorem components_list_nodup {obj : OBJ} {ccs : List (List Nat)}
    (hc : Graph.Components obj ccs) : ccs.Nodup := by
  obtain ⟨heads, _, hheads⟩ := hc.heads
  refine (List.nodup_flatten.mp hc.nodup).2.imp_of_mem ?_
  intro a b ha _ hdisj hab
  subst hab
  obtain ⟨h, _, t, ht, _, _⟩ := forall₂_mem_right hheads a ha
  subst ht
  exact hdisj (List.mem_cons_self _ _) (List.mem_cons_self _ _)

end OBJ

theorem digitValue_digitChar {d : Nat} (hd : d < 10) : digitValue (digitChar d) = some d := by
  interval_cases d <;> rfl

theorem isDigit_digitChar_mod (n : Nat) : IsDigit (digitChar (n % 10)) :=
  ⟨n % 10, Nat.mod_lt _ (by decide), rfl⟩

theorem isDigit_ne {c : Char} (h : IsDigit c) :
    c ≠ ' ' ∧ c ≠ '\n' ∧ c ≠ '/' ∧ c ≠ '#' := by
  obtain ⟨d, hd, rfl⟩ := h
  interval_cases d <;> decide

theorem decimalAux_spec : ∀ (fuel n : Nat) (acc : List Char), n < fuel →
    ∃ ds, decimalAux fuel n acc = ds ++ acc ∧ ds ≠ [] ∧ (∀ c ∈ ds, IsDigit c) ∧
      digitsValue ds 0 = n := by
  intro fuel
  induction fuel with
  | zero => intro n acc h; omega
  | succ fuel ih =>
    intro n acc h
    unfold decimalAux
    by_cases h0 : n / 10 = 0
    · rw [if_pos h0]
      refine ⟨[digitChar (n % 10)], rfl, by simp, ?_, ?_⟩
      · intro c hc
        rw [List.mem_singleton.mp hc]
        exact isDigit_digitChar_mod n
      · simp only [digitsValue, List.foldl_cons, List.foldl_nil,
          digitValue_digitChar (Nat.mod_lt n (by decide : 0 < 10)), Option.getD_some]
        omega
    · rw [if_neg h0]
      obtain ⟨ds, h1, _, h3, h4⟩ := ih (n / 10) (digitChar (n % 10) :: acc) (by omega)
      refine ⟨ds ++ [digitChar (n % 10)], by rw [h1]; simp, by simp, ?_, ?_⟩
      · intro c hc
        rcases List.mem_append.mp hc with hc1 | hc1
        · exact h3 c hc1
        · rw [List.mem_singleton.mp hc1]
          exact isDigit_digitChar_mod n
      · unfold digitsValue at h4 ⊢
        rw [List.foldl_append, h4]
        simp only [List.foldl_cons, List.foldl_nil,
          digitValue_digitChar (Nat.mod_lt n (by decide : 0 < 10)), Option.getD_some]
        omega

theorem decimal_spec (n : Nat) :
    decimal n ≠ [] ∧ (∀ c ∈ decimal n, IsDigit c) ∧ digitsValue (decimal n) 0 = n := by
  obtain ⟨ds, h1, h2, h3, h4⟩ := decimalAux_spec (n + 1) n [] (Nat.lt_succ_self n)
  unfold decimal
  rw [h1, List.append_nil]
  exact ⟨h2, h3, h4⟩

theorem decimal_not_mem (n : Nat) :
    ' ' ∉ decimal n ∧ '\n' ∉ decimal n ∧ '/' ∉ decimal n := by
  refine ⟨fun h => ?_, fun h => ?_, fun h => ?_⟩
  · exact (isDigit_ne ((decimal_spec n).2.1 _ h)).1 rfl
  · exact (isDigit_ne ((decimal_spec n).2.1 _ h)).2.1 rfl
  · exact (isDigit_ne ((decimal_spec n).2.1 _ h)).2.2.1 rfl

namespace OBJ

theorem tokenizeAux_nil (token : Char) (tmp : List Char) :
    tokenizeAux token [] tmp = if tmp = [] then [] else [tmp] := rfl

theorem tokenizeAux_cons (token c : Char) (cs tmp : List Char) :
    tokenizeAux token (c :: cs) tmp =
      if c = token then tmp :: tokenizeAux token cs [] else tokenizeAux token cs (tmp ++ [c]) :=
  rfl

theorem tokenizeAux_append (token : Char) : ∀ (l s tmp : List Char), token ∉ l →
    tokenizeAux token (l ++ s) tmp = tokenizeAux token s (tmp ++ l) := by
  intro l
  induction l with
  | nil => intro s tmp _; simp
  | cons c rest ih =>
    intro s tmp h
    have hc : c ≠ token := fun e => h (e ▸ List.mem_cons_self _ _)
    have hrest : token ∉ rest := fun e => h (List.mem_cons_of_mem _ e)
    show tokenizeAux token (c :: (rest ++ s)) tmp = _
    rw [tokenizeAux_cons, if_neg hc, ih s (tmp ++ [c]) hrest]
    simp

theorem tokenizeAux_sep (token : Char) (l rest tmp : List Char) (h : token ∉ l) :
    tokenizeAux token (l ++ token :: rest) tmp = (tmp ++ l) :: tokenizeAux token rest [] := by
  rw [tokenizeAux_append token l _ tmp h, tokenizeAux_cons, if_pos rfl]

theorem tokenizeAux_last (token : Char) (l tmp : List Char) (h : token ∉ l)
    (hne : tmp ++ l ≠ []) : tokenizeAux token l tmp = [tmp ++ l] := by
  have := tokenizeAux_append token l [] tmp h
  rw [List.append_nil] at this
  rw [this, tokenizeAux_nil, if_neg hne]

/-- Splitting the written lines at the line breaks gives the lines back. -/
theorem tokenize_endlAll : ∀ (ls : List (List Char)), (∀ l ∈ ls, '\n' ∉ l) →
    tokenize (endlAll ls) '\n' = ls := by
  intro ls
  induction ls with
  | nil => intro _; rfl
  | cons l rest ih =>
    intro h
    unfold tokenize at ih ⊢
    show tokenizeAux '\n' (l ++ '\n' :: endlAll rest) [] = _
    rw [tokenizeAux_sep '\n' l _ [] (h l (List.mem_cons_self _ _)),
      ih (fun x hx => h x (List.mem_cons_of_mem _ hx))]
    rfl

theorem tokenize_coordinates (L : StreamLib) (hL : L.ShowsTokens) (p : Vector3)
    (t0 : List Char) (ht0 : ' ' ∉ t0) :
    tokenize (t0 ++ coordinates L p) ' '
      = [t0, L.showScalar p.x, L.showScalar p.y, L.showScalar p.z] := by
  obtain ⟨_, hx, _⟩ := hL p.x
  obtain ⟨_, hy, _⟩ := hL p.y
  obtain ⟨hz0, hz, _⟩ := hL p.z
  unfold tokenize coordinates
  simp only [List.append_assoc, List.singleton_append, List.cons_append, List.nil_append]
  rw [tokenizeAux_sep ' ' t0 _ [] ht0, tokenizeAux_sep ' ' _ _ [] hx,
    tokenizeAux_sep ' ' _ _ [] hy, tokenizeAux_last ' ' _ [] hz (by simpa using hz0)]
  rfl

theorem indexToken_spec (v : Nat) :
    indexToken v ≠ [] ∧ ' ' ∉ indexToken v ∧ '\n' ∉ indexToken v ∧
      (tokenize (indexToken v) '/')[0]? = some (decimal ((v + 1) % uintModulus)) := by
  have hd := decimal_not_mem ((v + 1) % uintModulus)
  have hne := (decimal_spec ((v + 1) % uintModulus)).1
  refine ⟨by simp [indexToken, hne], ?_, ?_, ?_⟩
  · simp [indexToken, hd.1]
  · simp [indexToken, hd.2.1]
  · unfold tokenize indexToken
    simp only [List.append_assoc, List.cons_append, List.nil_append]
    rw [tokenizeAux_sep '/' _ _ [] hd.2.2]
    rfl

theorem tokenizeAux_faceIndices : ∀ (vs : List Nat) (tmp : List Char), tmp ≠ [] →
    tokenizeAux ' ' (faceIndices vs) tmp = tmp :: vs.map indexToken := by
  intro vs
  induction vs with
  | nil =>
    intro tmp h
    show tokenizeAux ' ' [] tmp = _
    rw [tokenizeAux_nil, if_neg h]
    rfl
  | cons v rest ih =>
    intro tmp _
    have hs := indexToken_spec v
    have e : faceIndices (v :: rest) = ' ' :: (indexToken v ++ faceIndices rest) := by
      simp [faceIndices, indexToken]
    rw [e, tokenizeAux_cons, if_pos rfl, tokenizeAux_append ' ' (indexToken v) _ [] hs.2.1, List.nil_append,
      ih (indexToken v) hs.1]
    rfl

theorem not_mem_faceIndices : ∀ (vs : List Nat), '\n' ∉ faceIndices vs := by
  intro vs
  induction vs with
  | nil => simp [faceIndices]
  | cons v rest ih =>
    have hd := decimal_not_mem ((v + 1) % uintModulus)
    simp [faceIndices, hd.2.1, ih]

theorem parseFace_indexTokens (L : StreamLib) (hR : L.ReadsDecimal) : ∀ (vs : List Nat),
    (∀ v ∈ vs, v < uintModulus) → parseFace L (vs.map indexToken) = some vs := by
  intro vs
  induction vs with
  | nil => intro _; rfl
  | cons v rest ih =>
    intro h
    have hv : v < uintModulus := h v (List.mem_cons_self _ _)
    show parseFace L (indexToken v :: rest.map indexToken) = _
    unfold parseFace
    rw [(indexToken_spec v).2.2.2, ih (fun x hx => h x (List.mem_cons_of_mem _ hx))]
    simp only [hR _ (Nat.mod_lt (v + 1) (by decide : 0 < uintModulus)),
      Option.some.injEq, List.cons.injEq, and_true]
    unfold uintModulus at hv ⊢
    omega

end OBJ

theorem readDigits_eq_digitsValue : ∀ (ds : List Char) (a : Nat), (∀ c ∈ ds, IsDigit c) →
    readDigits ds a = digitsValue ds a := by
  intro ds
  induction ds with
  | nil => intro a _; rfl
  | cons c rest ih =>
    intro a h
    obtain ⟨d, hd, rfl⟩ := h c (List.mem_cons_self _ _)
    unfold readDigits digitsValue
    rw [digitValue_digitChar hd, List.foldl_cons, digitValue_digitChar hd]
    exact ih _ (fun x hx => h x (List.mem_cons_of_mem _ hx))

theorem showFixed_token (q : ℚ) :
    showFixed q ≠ [] ∧ ' ' ∉ showFixed q ∧ '\n' ∉ showFixed q := by
  have hall : ∀ c ∈ showFixed q, c = '-' ∨ c = '.' ∨ c = '0' ∨ IsDigit c := by
    intro c hc
    unfold showFixed at hc
    simp only [List.mem_append, List.mem_singleton, List.mem_replicate] at hc
    rcases hc with (((h | h) | h) | h) | h
    · split at h
      · exact Or.inl (List.mem_singleton.mp h)
      · simp at h
    · exact Or.inr (Or.inr (Or.inr ((decimal_spec _).2.1 c h)))
    · exact Or.inr (Or.inl h)
    · exact Or.inr (Or.inr (Or.inl h.2))
    · exact Or.inr (Or.inr (Or.inr ((decimal_spec _).2.1 c h)))
  refine ⟨?_, fun h => ?_, fun h => ?_⟩
  · unfold showFixed
    simp
  · rcases hall _ h with h1 | h1 | h1 | h1
    · exact absurd h1 (by decide)
    · exact absurd h1 (by decide)
    · exact absurd h1 (by decide)
    · exact (isDigit_ne h1).1 rfl
  · rcases hall _ h with h1 | h1 | h1 | h1
    · exact absurd h1 (by decide)
    · exact absurd h1 (by decide)
    · exact absurd h1 (by decide)
    · exact (isDigit_ne h1).2.1 rfl

theorem plainStream_showsTokens : plainStream.ShowsTokens := showFixed_token

theorem plainStream_readsDecimal : plainStream.ReadsDecimal := by
  intro n hn
  show min (readDigits (decimal n) 0) (uintModulus - 1) = n
  rw [readDigits_eq_digitsValue _ _ (decimal_spec n).2.1, (decimal_spec n).2.2]
  exact Nat.min_eq_left (Nat.le_pred_of_lt hn)

namespace OBJ

theorem coordinates_no_newline (L : StreamLib) (hL : L.ShowsTokens) (p : Vector3) : '\n' ∉ coordinates L p := by
  obtain ⟨_, _, hx⟩ := hL p.x
  obtain ⟨_, _, hy⟩ := hL p.y
  obtain ⟨_, _, hz⟩ := hL p.z
  simp [coordinates, hx, hy, hz]

theorem headerLine_no_newline (obj : OBJ) : '\n' ∉ headerLine obj := by
  have h1 := (decimal_not_mem obj.numVertices).2.1
  have h2 := (decimal_not_mem obj.numNormals).2.1
  have h3 := (decimal_not_mem obj.numFaces).2.1
  unfold headerLine
  simp only [List.mem_append, not_or]
  exact ⟨⟨⟨⟨⟨by decide, h1⟩, by decide⟩, h2⟩, by decide⟩, h3⟩

theorem parseLine_header (L : StreamLib) (ret obj : OBJ) :
    parseLine L ret (headerLine obj) = some ret := by
  have hhead : (headerLine obj).head? = some '#' := rfl
  have hne : headerLine obj ≠ [] := by
    intro h
    rw [h] at hhead
    simp at hhead
  unfold parseLine
  rw [if_neg hne, if_pos hhead]

theorem parseLine_vertex (L : StreamLib) (hL : L.ShowsTokens) (ret : OBJ) (p : Vector3) :
    parseLine L ret (['v'] ++ coordinates L p)
      = some { ret with vertices := ret.vertices ++ [reread L p] } := by
  unfold parseLine
  rw [if_neg (by simp), if_neg (by simp),
    tokenize_coordinates L hL p ['v'] (by decide)]
  rfl

theorem parseLine_normal (L : StreamLib) (hL : L.ShowsTokens) (ret : OBJ) (p : Vector3) :
    parseLine L ret (['v', 'n'] ++ coordinates L p)
      = some { ret with normals := ret.normals ++ [reread L p] } := by
  unfold parseLine
  rw [if_neg (by simp), if_neg (by simp),
    tokenize_coordinates L hL p ['v', 'n'] (by decide)]
  rfl

theorem parseLine_face (L : StreamLib) (hR : L.ReadsDecimal) (ret : OBJ) (f : List Nat)
    (hf : ∀ v ∈ f, v < uintModulus) :
    parseLine L ret (faceLine f) = some { ret with faces := ret.faces ++ [f] } := by
  have htok : tokenize (faceLine f) ' ' = ['f'] :: f.map indexToken := by
    unfold tokenize faceLine
    show tokenizeAux ' ' ('f' :: faceIndices f) [] = _
    rw [tokenizeAux_cons, if_neg (by decide)]
    exact tokenizeAux_faceIndices f _ (by simp)
  unfold parseLine
  rw [if_neg (by simp [faceLine]), if_neg (by simp [faceLine]), htok]
  simp only
  rw [if_neg (by decide), if_neg (by decide), if_pos (by decide), parseFace_indexTokens L hR f hf]
  rfl

theorem parseLines_append (L : StreamLib) : ∀ (l1 l2 : List (List Char)) (ret : OBJ),
    parseLines L ret (l1 ++ l2) = (parseLines L ret l1).bind (fun r => parseLines L r l2) := by
  intro l1
  induction l1 with
  | nil => intro l2 ret; rfl
  | cons l rest ih =>
    intro l2 ret
    show (parseLine L ret l).bind _ = ((parseLine L ret l).bind _).bind _
    cases parseLine L ret l with
    | none => rfl
    | some r => exact ih l2 r

theorem parseLines_vertices (L : StreamLib) (hL : L.ShowsTokens) : ∀ (ps : List Vector3) (ret : OBJ),
    parseLines L ret (ps.map (fun v => ['v'] ++ coordinates L v))
      = some { ret with vertices := ret.vertices ++ ps.map (reread L) } := by
  intro ps
  induction ps with
  | nil => intro ret; simp [parseLines]
  | cons p rest ih =>
    intro ret
    show (parseLine L ret (['v'] ++ coordinates L p)).bind _ = _
    rw [parseLine_vertex L hL, Option.some_bind, ih]
    simp

theorem parseLines_normals (L : StreamLib) (hL : L.ShowsTokens) : ∀ (ps : List Vector3) (ret : OBJ),
    parseLines L ret (ps.map (fun vn => ['v', 'n'] ++ coordinates L vn))
      = some { ret with normals := ret.normals ++ ps.map (reread L) } := by
  intro ps
  induction ps with
  | nil => intro ret; simp [parseLines]
  | cons p rest ih =>
    intro ret
    show (parseLine L ret (['v', 'n'] ++ coordinates L p)).bind _ = _
    rw [parseLine_normal L hL, Option.some_bind, ih]
    simp

theorem parseLines_faces (L : StreamLib) (hR : L.ReadsDecimal) : ∀ (fs : List (List Nat)) (ret : OBJ),
    (∀ f ∈ fs, ∀ v ∈ f, v < uintModulus) →
    parseLines L ret (fs.map faceLine) = some { ret with faces := ret.faces ++ fs } := by
  intro fs
  induction fs with
  | nil => intro ret _; simp [parseLines]
  | cons f rest ih =>
    intro ret h
    show (parseLine L ret (faceLine f)).bind _ = _
    rw [parseLine_face L hR ret f (h f (List.mem_cons_self _ _)), Option.some_bind,
      ih _ (fun g hg => h g (List.mem_cons_of_mem _ hg))]
    simp

/-- Reading back what `toFile` wrote, for face indices in the range of `unsigned int`. -/
theorem fromFile_toFile (L : StreamLib) (hL : L.ShowsTokens) (hR : L.ReadsDecimal) (obj : OBJ)
    (h : IndicesInRange obj) :
    fromFile L (toFile L obj)
      = some ⟨obj.vertices.map (reread L), obj.normals.map (reread L), obj.faces⟩ := by
  unfold fromFile toFile
  rw [tokenize_endlAll]
  · show (parseLine L _ (headerLine obj)).bind _ = _
    rw [parseLine_header, Option.some_bind, parseLines_append, parseLines_append,
      parseLines_vertices L hL, Option.some_bind, parseLines_normals L hL, Option.some_bind,
      parseLines_faces L hR _ _ h]
    rfl
  · intro l hl
    rcases List.mem_cons.mp hl with rfl | hl
    · exact headerLine_no_newline obj
    · rcases List.mem_append.mp hl with hl | hl
      · rcases List.mem_append.mp hl with hl | hl
        · obtain ⟨p, _, rfl⟩ := List.mem_map.mp hl
          have := coordinates_no_newline L hL p
          simp [this]
        · obtain ⟨p, _, rfl⟩ := List.mem_map.mp hl
          have := coordinates_no_newline L hL p
          simp [this]
      · obtain ⟨f, _, rfl⟩ := List.mem_map.mp hl
        have := not_mem_faceIndices f
        simp [faceLine, this]

/-- C12 (write/parse round trip on structure). For a mesh with valid face indices and fewer
than `2^32` vertices, and a stream library that writes coordinates as tokens and reads back
decimal digits, parsing the text written by `toFile` returns a mesh with the same numbers of
vertices, normals and faces and the same faces. The header line is skipped, and the face line
of `f` splits into `f` and one token `(v+1)//(v+1)` per index `v`. -/
theorem write_parse_round_trip (L : StreamLib) (hL : L.ShowsTokens) (hR : L.ReadsDecimal)
    (obj : OBJ) (hv : ValidFaces obj) (hsize : obj.numVertices < uintModulus) :
    ∃ r, fromFile L (toFile L obj) = some r ∧
      r.numVertices = obj.numVertices ∧ r.numNormals = obj.numNormals ∧
      r.numFaces = obj.numFaces ∧ r.faces = obj.faces ∧
      (∀ ret : OBJ, parseLine L ret (headerLine obj) = some ret) ∧
      ∀ f ∈ obj.faces, tokenize (faceLine f) ' ' =
        ['f'] :: f.map (fun v => decimal (v + 1) ++ ['/', '/'] ++ decimal (v + 1)) := by
  have hrange : IndicesInRange obj := fun f hf v hvf => Nat.lt_trans (hv f hf v hvf) hsize
  refine ⟨_, fromFile_toFile L hL hR obj hrange, ?_, ?_, rfl, rfl,
    fun ret => parseLine_header L ret obj, ?_⟩
  · simp [numVertices]
  · simp [numNormals]
  · intro f hf
    have htok : tokenize (faceLine f) ' ' = ['f'] :: f.map indexToken := by
      unfold tokenize faceLine
      show tokenizeAux ' ' ('f' :: faceIndices f) [] = _
      rw [tokenizeAux_cons, if_neg (by decide)]
      exact tokenizeAux_faceIndices f _ (by simp)
    rw [htok]
    congr 1
    refine List.map_congr_left (fun v hvf => ?_)
    have hlt : v + 1 < uintModulus := Nat.lt_of_le_of_lt (hv f hf v hvf) hsize
    unfold indexToken
    rw [Nat.mod_eq_of_lt hlt]

theorem write_parse_round_trip_witness :
    (plainStream.ShowsTokens ∧ plainStream.ReadsDecimal ∧ ValidFaces bareTriangle ∧
      bareTriangle.numVertices < uintModulus ∧
      ∃ r, fromFile plainStream (toFile plainStream bareTriangle) = some r ∧
        r.numVertices = bareTriangle.numVertices ∧ r.numNormals = bareTriangle.numNormals ∧
        r.numFaces = bareTriangle.numFaces ∧ r.faces = bareTriangle.faces ∧
        (∀ ret : OBJ, parseLine plainStream ret (headerLine bareTriangle) = some ret) ∧
        ∀ f ∈ bareTriangle.faces, tokenize (faceLine f) ' ' =
          ['f'] :: f.map (fun v => decimal (v + 1) ++ ['/', '/'] ++ decimal (v + 1))) ∧
      faceLine [0, 1, 2] = "f 1//1 2//2 3//3".toList ∧
      bareTriangle.numVertices = 3 ∧ bareTriangle.faces = [[0, 1, 2]] :=
  ⟨⟨plainStream_showsTokens, plainStream_readsDecimal, by decide, by decide,
    write_parse_round_trip plainStream plainStream_showsTokens plainStream_readsDecimal
      bareTriangle (by decide) (by decide)⟩, by decide, by decide, by decide⟩

/-- C13 (unrecognized lines), evaluated where the code departs from it: whatever the stream
library, the line `vt 0.5 0.5 0`, whose first token is `vt`, appends a vertex, and so does
`vp 1 2 3`; the switch of `fromFile` looks at the first character of the token only, except
for `vn`. The line `g name` leaves the mesh unchanged. -/
theorem vt_line_adds_vertex (L : StreamLib) (ret : OBJ) :
    (tokenize "vt 0.5 0.5 0".toList ' ').head? = some "vt".toList ∧
      parseLine L ret "vt 0.5 0.5 0".toList =
        some { ret with vertices := ret.vertices ++
          [⟨L.readScalar "0.5".toList, L.readScalar "0.5".toList, L.readScalar "0".toList⟩] } ∧
      (fromFile L "vt 0.5 0.5 0\n".toList).map numVertices = some 1 ∧
      parseLine L ret "vp 1 2 3".toList =
        some { ret with vertices := ret.vertices ++
          [⟨L.readScalar "1".toList, L.readScalar "2".toList, L.readScalar "3".toList⟩] } ∧
      parseLine L ret "g name".toList = some ret :=
  ⟨rfl, rfl, rfl, rfl, rfl⟩

end OBJ

namespace OBJ

/-- The value of `centroid` for the content `ret` of the accumulator. -/
theorem centroid_formula (ret : Vector3) (obj : OBJ) (subset : List Nat)
    (hval : ∀ c ∈ subset, c < obj.numVertices) :
    centroid ret obj subset =
      some ⟨(ret.x + (subset.map (fun c => (vertexAt obj c).x)).sum) / subset.length,
        (ret.y + (subset.map (fun c => (vertexAt obj c).y)).sum) / subset.length,
        (ret.z + (subset.map (fun c => (vertexAt obj c).z)).sum) / subset.length⟩ := by
  rw [centroid_eq ret obj subset _ (forall₂_vertexAt obj subset hval), foldl_add_eq]
  simp [Vector3.divScalar, List.map_map, Function.comp_def]

/-- The result of `centroid` is the mean exactly when the accumulator held zero. -/
theorem centroid_eq_mean_iff (ret : Vector3) (obj : OBJ) (subset : List Nat)
    (hne : subset ≠ []) (hval : ∀ c ∈ subset, c < obj.numVertices) :
    centroid ret obj subset = some (meanOf obj subset) ↔ ret = Vector3.zero := by
  have hn : (subset.length : ℚ) ≠ 0 := by
    have : subset.length ≠ 0 := fun h => hne (List.length_eq_zero.mp h)
    exact_mod_cast this
  rw [centroid_formula ret obj subset hval]
  obtain ⟨rx, ry, rz⟩ := ret
  simp only [meanOf, Option.some.injEq, Vector3.mk.injEq, Vector3.zero, div_left_inj' hn,
    add_left_eq_self]

theorem connectedComponents_eq (obj : OBJ) (d : Nat) {ccs : List (List Nat)}
    (h : graphComponents obj = some ccs) :
    connectedComponents obj d = if ccs.length < 2 then sliceEach obj ccs else none := by
  unfold connectedComponents sortComponents
  rw [h]
  by_cases hl : ccs.length < 2
  · simp [hl]
  · simp [hl]

/-- With valid faces every component can be sliced when each vertex has a normal. -/
theorem component_slices_return (obj : OBJ) (hwf : WellFormed obj) :
    ∃ g ccs, Graph.ofOBJ obj = some g ∧ Graph.getConnectedComponents g = some ccs ∧
      ∀ c ∈ ccs, ∃ M, slice obj c = some M := by
  obtain ⟨g, ccs, hg, hrun, hc⟩ := Graph.getConnectedComponents_spec obj hwf.1
  refine ⟨g, ccs, hg, hrun, ?_⟩
  intro c hcm
  obtain ⟨hnd, hlt⟩ := components_mem hc hcm
  obtain ⟨ps, ns, kept, h1, _⟩ := slice_spec obj c hnd
    (fun i hi => ⟨hlt i hi, Nat.lt_of_lt_of_le (hlt i hi) hwf.2⟩)
  exact ⟨_, h1⟩

/-- The slices of the components of a well-formed mesh hold its faces: read back through its
component, the slice of a component has exactly the source faces touching that component;
every non-empty face lies in one component and touches no other; face and vertex counts add
up. -/
theorem component_slices_preserve_faces (obj : OBJ) (hwf : WellFormed obj) :
    ∃ ccs, graphComponents obj = some ccs ∧
      (∀ c ∈ ccs, ∃ M, slice obj c = some M ∧ M.numVertices = c.length ∧
        M.faces.map (mapBack c) = obj.faces.filter (touches c)) ∧
      (∀ f ∈ obj.faces, f ≠ [] → ∃ c ∈ ccs, (∀ v ∈ f, v ∈ c) ∧
        ∀ c1 ∈ ccs, touches c1 f = true → c1 = c) ∧
      (ccs.map (fun c => (obj.faces.filter (touches c)).length)).sum
        = (obj.faces.filter (fun f => decide (f ≠ []))).length ∧
      (ccs.map List.length).sum = obj.numVertices := by
  obtain ⟨ccs, hrun, hc⟩ := graphComponents_spec obj hwf.1
  have huniq : ∀ f ∈ obj.faces, f ≠ [] → ∃ c ∈ ccs, (∀ v ∈ f, v ∈ c) ∧
      ∀ c1 ∈ ccs, touches c1 f = true → c1 = c := by
    intro f hf hne
    obtain ⟨v0, rest, rfl⟩ := List.exists_cons_of_ne_nil hne
    have hv0 : v0 < obj.numVertices := hwf.1 _ hf v0 (List.mem_cons_self _ _)
    obtain ⟨c, hcm, hv0c⟩ := List.mem_flatten.mp ((hc.cover v0).mpr hv0)
    have htouch : touches c (v0 :: rest) = true :=
      List.any_eq_true.mpr ⟨v0, List.mem_cons_self _ _, decide_eq_true hv0c⟩
    refine ⟨c, hcm, components_face_closed hc hcm _ hf htouch, ?_⟩
    intro c1 hc1 ht1
    by_contra hne1
    have hdisj := (List.nodup_flatten.mp hc.nodup).2.forall (fun _ _ h => h.symm) hc1 hcm hne1
    exact hdisj (components_face_closed hc hc1 _ hf ht1 v0 (List.mem_cons_self _ _)) hv0c
  refine ⟨ccs, hrun, ?_, huniq, ?_, ?_⟩
  · intro c hcm
    obtain ⟨hnd, hlt⟩ := components_mem hc hcm
    have hclosed := components_face_closed hc hcm
    obtain ⟨M, hM, hv1, hf1⟩ := slice_closed obj c hnd
      (fun i hi => ⟨hlt i hi, Nat.lt_of_lt_of_le (hlt i hi) hwf.2⟩) hclosed
    refine ⟨M, hM, hv1, ?_⟩
    rw [hf1, List.map_map]
    conv_rhs => rw [← List.map_id (obj.faces.filter (touches c))]
    refine List.map_congr_left (fun f hf => ?_)
    obtain ⟨hfm, hft⟩ := List.mem_filter.mp hf
    exact mapBack_remap c f (hclosed f hfm hft)
  · refine sum_touched_faces ccs obj.faces (fun f hf => ?_)
    by_cases hne : f ≠ []
    · rw [if_pos hne]
      obtain ⟨c, hcs, hall, hu⟩ := huniq f hf hne
      obtain ⟨v0, rest, rfl⟩ := List.exists_cons_of_ne_nil hne
      refine countP_eq_one _ ccs c (components_list_nodup hc) hcs ?_ hu
      exact List.any_eq_true.mpr
        ⟨v0, List.mem_cons_self _ _, decide_eq_true (hall v0 (List.mem_cons_self _ _))⟩
    · rw [if_neg hne, List.countP_eq_zero]
      intro c _
      have : f = [] := by simpa using hne
      subst this
      simp [touches]
  · rw [← List.length_flatten,
      ((List.perm_ext_iff_of_nodup hc.nodup (List.nodup_range _)).mpr
        (fun u => by rw [hc.cover, List.mem_range])).length_eq, List.length_range]

/-- C14 (centroid), evaluated where the code departs from it. The source never initialises
the accumulator `ret`. On the vertices `(3,0,0)`, `(1,0,0)`, `(2,0,0)` and the indices
`[0, 1, 2]` the result of `centroid` is the mean `(2,0,0)` only if the accumulator happened
to hold zero; when it holds `(3,0,0)` the result is `(3,0,0)`. -/
theorem centroid_accumulator_uninitialised :
    (∀ ret : Vector3, centroid ret threePoints [0, 1, 2]
        = some (meanOf threePoints [0, 1, 2]) ↔ ret = Vector3.zero) ∧
      meanOf threePoints [0, 1, 2] = ⟨2, 0, 0⟩ ∧
      centroid ⟨3, 0, 0⟩ threePoints [0, 1, 2] = some ⟨3, 0, 0⟩ := by
  refine ⟨fun ret => centroid_eq_mean_iff ret threePoints [0, 1, 2] (by decide) (by decide),
    ?_, ?_⟩
  · simp only [meanOf, vertexAt, threePoints, List.map_cons, List.map_nil, List.getD_cons_zero,
      List.getD_cons_succ, List.sum_cons, List.sum_nil, List.length_cons, List.length_nil]
    norm_num
  · rw [centroid_formula _ threePoints [0, 1, 2] (by decide)]
    simp only [vertexAt, threePoints, List.map_cons, List.map_nil, List.getD_cons_zero,
      List.getD_cons_succ, List.sum_cons, List.sum_nil, List.length_cons, List.length_nil]
    norm_num

theorem components_nonempty_witness :
    (ValidFaces twoTriangles ∧
      ∃ ccs, graphComponents twoTriangles = some ccs ∧ ∀ c ∈ ccs, c ≠ [] ∧ 0 < c.length) ∧
      graphComponents twoTriangles = some [[0, 1, 2], [3, 4, 5]] ∧
      graphComponents emptyMesh = some [] :=
  ⟨⟨by decide, components_nonempty twoTriangles (by decide)⟩, by decide, by decide⟩

/-- C11 as stated fails: on a mesh of one vertex and no normals, with valid (no) faces and the
subset `[0]` valid in `vertices`, `slice` reads `obj.normals[0]` out of range, and so does
`connectedComponents`, which slices the one component `[0]`. -/
theorem slice_needs_normals :
    ValidFaces oneVertex ∧ (∀ i ∈ [0], i < oneVertex.numVertices) ∧
      slice oneVertex [0] = none ∧ graphComponents oneVertex = some [[0]] ∧
      connectedComponents oneVertex 0 = none := by
  decide

end OBJ
